import Mathlib

/-!
Verification of the `juliet::sync::map::Map` read-mostly concurrent map
(`include/sync/map.hpp`) against its specification.

The development is a shallow embedding of the sequential semantics of the
container: every compare-and-swap retry loop in the source resolves in one
iteration when a single thread runs, every mutex acquisition is a no-op, and
`read_.Load()` returns the currently published `ReadOnly`.  Entries are shared
by reference between the published snapshot and the "dirty" overlay; sharing is
modelled by a heap of entry records indexed by entry id, with both tables
mapping keys to ids.
-/

set_option autoImplicit false

namespace JulietSyncMap

/-- Tri-state lifecycle tag of an `Entry` (`Entry::EState`). -/
inductive EState where
  | kNull
  | kValue
  | kExpunged
deriving DecidableEq, Repr

/-- The data of one `Entry<Value>`: the owned optional value (`ptr_`) and the
tri-state tag (`state_`).  The per-entry mutex only guards the value swap and
has no sequential content. -/
structure EntryData (V : Type) where
  ptr : Option V
  state : EState
deriving DecidableEq, Repr

/-- `Entry::Load`: tag `kNull`/`kExpunged` report not-found; `kValue` returns `ptr_`. -/
def entryLoad {V : Type} (d : EntryData V) : Option V × Bool :=
  match d.state with
  | .kNull => (none, false)
  | .kExpunged => (none, false)
  | .kValue => (d.ptr, true)

/-- `Entry::TryStore`: fails when `kExpunged`; otherwise sets the tag to
`kValue` and swaps the new value in. -/
def tryStore {V : Type} (d : EntryData V) (v : V) : EntryData V × Bool :=
  match d.state with
  | .kExpunged => (d, false)
  | _ => (⟨some v, .kValue⟩, true)

/-- `Entry::StoreLocked`: unconditional store to `kValue`. -/
def storeLocked {V : Type} (v : V) : EntryData V :=
  ⟨some v, .kValue⟩

/-- Result record of `Entry::TryLoadOrStore`. -/
structure TLSResult (V : Type) where
  actual : Option V
  loaded : Bool
  ok : Bool
deriving DecidableEq, Repr

/-- `Entry::TryLoadOrStore`: `kExpunged` fails (`ok = false`); `kValue` returns
the stored value with `loaded = true`; `kNull` transitions to `kValue` holding
the given value and returns it with `loaded = false`. -/
def tryLoadOrStore {V : Type} (d : EntryData V) (v : V) : EntryData V × TLSResult V :=
  match d.state with
  | .kExpunged => (d, ⟨none, false, false⟩)
  | .kValue => (d, ⟨d.ptr, true, true⟩)
  | .kNull => (⟨some v, .kValue⟩, ⟨some v, false, true⟩)

/-- `Entry::Delete`: `kNull`/`kExpunged` report false; `kValue` transitions to
`kNull` and extracts the old value. -/
def entryDelete {V : Type} (d : EntryData V) : EntryData V × Option V × Bool :=
  match d.state with
  | .kNull => (d, none, false)
  | .kExpunged => (d, none, false)
  | .kValue => (⟨none, .kNull⟩, d.ptr, true)

/-- `Entry::TryExpungeLocked`: `kNull` transitions to `kExpunged` (true);
already `kExpunged` reports true; `kValue` reports false. -/
def tryExpungeLocked {V : Type} (d : EntryData V) : EntryData V × Bool :=
  match d.state with
  | .kNull => (⟨d.ptr, .kExpunged⟩, true)
  | .kExpunged => (d, true)
  | .kValue => (d, false)

/-- `Entry::UnexpungeLocked`: `kExpunged` transitions back to `kNull` (clearing
`ptr_`) and reports the transition; otherwise no change. -/
def unexpungeLocked {V : Type} (d : EntryData V) : EntryData V × Bool :=
  match d.state with
  | .kExpunged => (⟨none, .kNull⟩, true)
  | _ => (d, false)

/-! ### Association lists modelling `std::unordered_map`

Iteration order of `std::unordered_map` is unspecified; the model uses the
list order. -/

def alFind {K A : Type} [DecidableEq K] : List (K × A) → K → Option A
  | [], _ => none
  | (k', a) :: t, k => if k' = k then some a else alFind t k

/-- `operator[]`-style insert-or-assign. -/
def alInsert {K A : Type} [DecidableEq K] : List (K × A) → K → A → List (K × A)
  | [], k, a => [(k, a)]
  | (k', a') :: t, k, a => if k' = k then (k, a) :: t else (k', a') :: alInsert t k a

/-- `emplace`-style insert-if-absent. -/
def alEmplace {K A : Type} [DecidableEq K] (l : List (K × A)) (k : K) (a : A) : List (K × A) :=
  match alFind l k with
  | some _ => l
  | none => l ++ [(k, a)]

/-- `erase` of one key. -/
def alErase {K A : Type} [DecidableEq K] : List (K × A) → K → List (K × A)
  | [], _ => []
  | (k', a') :: t, k => if k' = k then t else (k', a') :: alErase t k

/-! ### The map state -/

/-- A table (`ReadOnly::m` or the overlay) maps keys to entry ids in the heap. -/
abbrev Table (K : Type) := List (K × Nat)

/-- Sequential state of a `Map<Key, Value>`: the entry heap (modelling the
shared `Entry` objects), the published snapshot's table `read_.readOnly.m`
with its `amended` flag, the overlay `dirty_` (null when absent), and the miss
counter `misses_`. -/
structure MapState (K V : Type) where
  heap : List (EntryData V)
  readM : Table K
  amended : Bool
  dirty : Option (Table K)
  misses : Nat
deriving DecidableEq, Repr

/-- A freshly constructed map. -/
def emptyMap {K V : Type} : MapState K V :=
  { heap := [], readM := [], amended := false, dirty := none, misses := 0 }

/-- Dereference an entry id in the heap (total; ids out of range — which never
occur in reachable states — read as an empty `kNull` entry). -/
def heapGet {V : Type} : List (EntryData V) → Nat → EntryData V
  | [], _ => ⟨none, .kNull⟩
  | d :: _, 0 => d
  | _ :: t, n + 1 => heapGet t n

def getEntry {K V : Type} (s : MapState K V) (e : Nat) : EntryData V :=
  heapGet s.heap e

def setEntry {K V : Type} (s : MapState K V) (e : Nat) (d : EntryData V) : MapState K V :=
  { s with heap := s.heap.set e d }

/-- `Entry::NewEntry`. -/
def mkEntry {V : Type} (v : V) : EntryData V :=
  ⟨some v, .kValue⟩

/-- `Map::MissLocked`: record a miss; once the counter reaches the overlay's
size, publish the overlay as the new snapshot (`amended = false`), clear the
overlay and reset the counter.  The `none` branch is the source's
`assert(dirty_ != nullptr)`, unreachable from invariant states. -/
def missLocked {K V : Type} (s : MapState K V) : MapState K V :=
  match s.dirty with
  | none => { s with misses := s.misses + 1 }
  | some d =>
    if s.misses + 1 < d.length then { s with misses := s.misses + 1 }
    else { s with readM := d, amended := false, dirty := none, misses := 0 }

/-- The loop of `Map::DirtyLocked`: walk the snapshot's table, expunging
`kNull` entries and `emplace`-ing the surviving ones into the overlay being
built. -/
def dirtyScan {K V : Type} [DecidableEq K] (heap : List (EntryData V)) (acc : Table K) :
    Table K → List (EntryData V) × Table K
  | [] => (heap, acc)
  | (k, e) :: t =>
    let r := tryExpungeLocked (heapGet heap e)
    if r.2 then dirtyScan (heap.set e r.1) acc t
    else dirtyScan (heap.set e r.1) (alEmplace acc k e) t

/-- `Map::DirtyLocked`: no-op when the overlay already exists; otherwise build
it from the non-expunged entries of the snapshot's table. -/
def dirtyLocked {K V : Type} [DecidableEq K] (s : MapState K V) : MapState K V :=
  match s.dirty with
  | some _ => s
  | none =>
    let p := dirtyScan s.heap [] s.readM
    { s with heap := p.1, dirty := some p.2 }

/-- Shared tail of `Map::Store`'s slow path when the key is absent from both
the snapshot and the overlay: build the overlay if the snapshot is not yet
amended, mark it amended, insert a fresh entry.  The `none` fallthrough is the
source's `assert(dirty_ != nullptr)`. -/
def storeNew {K V : Type} [DecidableEq K] (k : K) (v : V) (s : MapState K V) : MapState K V :=
  let s1 := if s.amended then s else { dirtyLocked s with amended := true }
  match s1.dirty with
  | some d =>
    { s1 with heap := s1.heap ++ [mkEntry v], dirty := some (alInsert d k s1.heap.length) }
  | none => s1

/-- Slow path of `Map::Store` (the body under the mutex). -/
def storeSlow {K V : Type} [DecidableEq K] (k : K) (v : V) (s : MapState K V) : MapState K V :=
  match alFind s.readM k with
  | some e =>
    let u := unexpungeLocked (getEntry s e)
    let s1 := setEntry s e u.1
    let s2 :=
      if u.2 then
        match s1.dirty with
        | some d => { s1 with dirty := some (alInsert d k e) }
        | none => s1
      else s1
    setEntry s2 e (storeLocked v)
  | none =>
    match s.dirty with
    | some d =>
      match alFind d k with
      | some e => setEntry s e (storeLocked v)
      | none => storeNew k v s
    | none => storeNew k v s

/-- `Map::Store`. -/
def storeOp {K V : Type} [DecidableEq K] (k : K) (v : V) (s : MapState K V) : MapState K V :=
  match alFind s.readM k with
  | some e =>
    let r := tryStore (getEntry s e) v
    if r.2 then setEntry s e r.1 else storeSlow k v s
  | none => storeSlow k v s

/-- Entry resolution phase of `Map::Load(key, value*)`: the fast path against
the snapshot, then (when amended) the slow path under the mutex, which re-reads
the snapshot — sequentially unchanged — and falls through to the overlay,
recording a miss. -/
def loadFind {K V : Type} [DecidableEq K] (k : K) (s : MapState K V) :
    Option Nat × MapState K V :=
  match alFind s.readM k with
  | some e => (some e, s)
  | none =>
    if s.amended then
      match alFind s.readM k with
      | some e => (some e, s)
      | none =>
        if s.amended then (alFind (s.dirty.getD []) k, missLocked s)
        else (none, s)
    else (none, s)

/-- `Map::Load(key, value*)`: returns the value written through `value`
together with the found flag, and the updated state. -/
def loadOp {K V : Type} [DecidableEq K] (k : K) (s : MapState K V) :
    (Option V × Bool) × MapState K V :=
  let p := loadFind k s
  match p.1 with
  | some e => (entryLoad (getEntry p.2 e), p.2)
  | none => ((none, false), p.2)

/-- Shared tail of `Map::LoadOrStore` when the key is absent from both the
snapshot and the overlay (mirrors `storeNew`, returning `(value, false)`). -/
def losNew {K V : Type} [DecidableEq K] (k : K) (v : V) (s : MapState K V) :
    (Option V × Bool) × MapState K V :=
  let s1 := if s.amended then s else { dirtyLocked s with amended := true }
  match s1.dirty with
  | some d =>
    ((some v, false),
      { s1 with heap := s1.heap ++ [mkEntry v], dirty := some (alInsert d k s1.heap.length) })
  | none => ((some v, false), s1)

/-- Slow path of `Map::LoadOrStore` (the body under the mutex). -/
def losSlow {K V : Type} [DecidableEq K] (k : K) (v : V) (s : MapState K V) :
    (Option V × Bool) × MapState K V :=
  match alFind s.readM k with
  | some e =>
    let u := unexpungeLocked (getEntry s e)
    let s1 := setEntry s e u.1
    let s2 :=
      if u.2 then
        match s1.dirty with
        | some d => { s1 with dirty := some (alInsert d k e) }
        | none => s1
      else s1
    let r := tryLoadOrStore (getEntry s2 e) v
    ((r.2.actual, r.2.loaded), setEntry s2 e r.1)
  | none =>
    match s.dirty with
    | some d =>
      match alFind d k with
      | some e =>
        let r := tryLoadOrStore (getEntry s e) v
        ((r.2.actual, r.2.loaded), missLocked (setEntry s e r.1))
      | none => losNew k v s
    | none => losNew k v s

/-- `Map::LoadOrStore`: returns (`*actual`, loaded) and the updated state. -/
def loadOrStoreOp {K V : Type} [DecidableEq K] (k : K) (v : V) (s : MapState K V) :
    (Option V × Bool) × MapState K V :=
  match alFind s.readM k with
  | some e =>
    let r := tryLoadOrStore (getEntry s e) v
    if r.2.ok then ((r.2.actual, r.2.loaded), setEntry s e r.1)
    else losSlow k v s
  | none => losSlow k v s

/-- Entry resolution phase of `Map::Delete(key, value*)`: same fast/slow
lookup as `Load`, but when the entry is found through the overlay its mapping
is erased from the overlay; a miss is recorded on the fall-through either way. -/
def deleteFind {K V : Type} [DecidableEq K] (k : K) (s : MapState K V) :
    Option Nat × MapState K V :=
  match alFind s.readM k with
  | some e => (some e, s)
  | none =>
    if s.amended then
      match alFind s.readM k with
      | some e => (some e, s)
      | none =>
        if s.amended then
          match alFind (s.dirty.getD []) k with
          | some e =>
            (some e, missLocked { s with dirty := s.dirty.map (fun d => alErase d k) })
          | none => (none, missLocked s)
        else (none, s)
    else (none, s)

/-- `Map::Delete(key, value*)` continued: call `Entry::Delete` on the located
entry. -/
def deleteOp {K V : Type} [DecidableEq K] (k : K) (s : MapState K V) :
    (Option V × Bool) × MapState K V :=
  let p := deleteFind k s
  match p.1 with
  | some e =>
    let r := entryDelete (getEntry p.2 e)
    ((r.2.1, r.2.2), setEntry p.2 e r.1)
  | none => ((none, false), p.2)

/-- The collection loop of `Map::Reset(RawMap*)`: `emplace` every live entry
of the final table into the raw result. -/
def collectRaw {K V : Type} [DecidableEq K] (heap : List (EntryData V)) :
    Table K → List (K × V) → List (K × V)
  | [], acc => acc
  | (k, e) :: t, acc =>
    match entryLoad (heapGet heap e) with
    | (some v, true) => collectRaw heap t (alEmplace acc k v)
    | _ => collectRaw heap t acc

/-- `Map::Reset(RawMap*)`: drain the map, returning the raw contents of the
final logical table (the overlay when amended, else the snapshot's table). -/
def resetOp {K V : Type} [DecidableEq K] (s : MapState K V) :
    List (K × V) × MapState K V :=
  let tbl := if s.amended then s.dirty.getD [] else s.readM
  (collectRaw s.heap tbl [],
    { heap := s.heap, readM := [], amended := false, dirty := none, misses := 0 })

/-- Iteration loop of `Map::Range`: the sequence of enumerator invocations in
table order, skipping entries whose `Load` reports not-found, stopping after
the first invocation that returns false. -/
def rangeIter {K V : Type} (g : K → V → Bool) (heap : List (EntryData V)) :
    Table K → List (K × V)
  | [] => []
  | (k, e) :: t =>
    match entryLoad (heapGet heap e) with
    | (some v, true) => if g k v then (k, v) :: rangeIter g heap t else [(k, v)]
    | _ => rangeIter g heap t

/-- `Map::Range`.  The enumerator is `none` for an empty `std::function`
(which returns immediately).  Returns the updated state and the list of
(key, value) pairs the enumerator was invoked on. -/
def rangeOp {K V : Type} [DecidableEq K] (f : Option (K → V → Bool)) (s : MapState K V) :
    MapState K V × List (K × V) :=
  match f with
  | none => (s, [])
  | some g =>
    let s1 :=
      if s.amended then
        if s.amended then
          { s with readM := s.dirty.getD [], amended := false, dirty := none, misses := 0 }
        else s
      else s
    (s1, rangeIter g s1.heap s1.readM)

/-- All states reachable from a freshly constructed map through the public
interface. -/
inductive Reachable {K V : Type} [DecidableEq K] : MapState K V → Prop where
  | init : Reachable emptyMap
  | store {s : MapState K V} (k : K) (v : V) : Reachable s → Reachable (storeOp k v s)
  | load {s : MapState K V} (k : K) : Reachable s → Reachable (loadOp k s).2
  | loadOrStore {s : MapState K V} (k : K) (v : V) :
      Reachable s → Reachable (loadOrStoreOp k v s).2
  | del {s : MapState K V} (k : K) : Reachable s → Reachable (deleteOp k s).2
  | range {s : MapState K V} (f : Option (K → V → Bool)) :
      Reachable s → Reachable (rangeOp f s).1
  | reset {s : MapState K V} : Reachable s → Reachable (resetOp s).2

/-- Modelled from the spec: the intended body of the single-argument
`Map::Load(key)` convenience overload, `Value result{}; Load(key, &result);
return result;` — "load(key) -> optional<value>" with a default-constructed
fallback.  The source at `map.hpp:249` instead calls `Get(key, &result)`, a
member that does not exist in `Map` (`Get` is the `CachedMap` / `HashTable`
interface), so the overload fails to compile when instantiated. -/
def loadDefaultOp {K V : Type} [DecidableEq K] [Inhabited V] (k : K) (s : MapState K V) :
    V × MapState K V :=
  let r := loadOp k s
  (r.1.1.getD default, r.2)

/-! ### Concrete scenario states -/

/-- The live (key, value) pairs of a table, in table order: the entries whose
`Entry::Load` reports found. -/
def liveEntries {K V : Type} (heap : List (EntryData V)) (tbl : Table K) : List (K × V) :=
  tbl.filterMap fun p =>
    match entryLoad (heapGet heap p.2) with
    | (some v, true) => some (p.1, v)
    | _ => none

/-- Specification of an early-terminating traversal: all leading pairs on
which the predicate holds, plus the first pair (if any) on which it fails. -/
def visitSpec {K V : Type} (g : K → V → Bool) (l : List (K × V)) : List (K × V) :=
  l.takeWhile (fun p => g p.1 p.2) ++ (l.dropWhile (fun p => g p.1 p.2)).take 1

/-- The state after `store("a", 1); store("b", 2)` on a fresh map. -/
def sAB : MapState String Nat :=
  storeOp "b" 2 (storeOp "a" 1 emptyMap)

/-- The state after `store("a", 1)` and a missed lookup of "b", which promotes
the singleton overlay: the snapshot's table holds "a", no overlay exists. -/
def sA : MapState String Nat :=
  (loadOp "b" (storeOp "a" 1 emptyMap)).2

/-- Key-to-entry reachability through either table of the map state. -/
def inTables {K V : Type} [DecidableEq K] (s : MapState K V) (k : K) (e : Nat) : Prop :=
  alFind s.readM k = some e ∨ ∃ d, s.dirty = some d ∧ alFind d k = some e

/-- The state invariant maintained by every public operation: the `amended`
flag tracks overlay existence; table entry ids are in range and no entry is
shared between two keys; table keys are unique; the overlay never holds an
expunged entry; every non-expunged entry of the snapshot's table is in the
overlay (the C3 invariant); and a `kValue` entry owns a value. -/
structure Inv {K V : Type} [DecidableEq K] (s : MapState K V) : Prop where
  amendedDirty : s.amended = true ↔ s.dirty.isSome
  ids : ∀ k e, inTables s k e → e < s.heap.length
  unique : ∀ k j e, inTables s k e → inTables s j e → k = j
  nodupRead : (s.readM.map Prod.fst).Nodup
  nodupDirty : ∀ d, s.dirty = some d → (d.map Prod.fst).Nodup
  dirtyNotExpunged : ∀ d k e, s.dirty = some d → alFind d k = some e →
    (getEntry s e).state ≠ .kExpunged
  readInDirty : ∀ d k e, s.dirty = some d → alFind s.readM k = some e →
    (getEntry s e).state ≠ .kExpunged → alFind d k = some e
  wf : ∀ e, e < s.heap.length → (getEntry s e).state = .kValue →
    (getEntry s e).ptr.isSome

/-! ### Helper lemmas -/

theorem loadOp_state {K V : Type} [DecidableEq K] (k : K) (s : MapState K V) :
    (loadOp k s).2 = (loadFind k s).2 := by
  unfold loadOp
  cases hp : (loadFind k s).1 <;> simp [hp]

theorem loadOp_not_found {K V : Type} [DecidableEq K] (k : K) (s : MapState K V)
    (h : (loadOp k s).1.2 = false) : (loadOp k s).1.1 = none := by
  unfold loadOp at h ⊢
  cases hp : (loadFind k s).1 with
  | none => simp [hp]
  | some e =>
    cases hE : (getEntry (loadFind k s).2 e).state <;>
      simp_all [entryLoad, hp, hE]

theorem heapGet_set_self {V : Type} (l : List (EntryData V)) (i : Nat) (a : EntryData V)
    (h : i < l.length) : heapGet (l.set i a) i = a := by
  induction l generalizing i with
  | nil => simp at h
  | cons x t ih =>
    cases i with
    | zero => rfl
    | succ n => exact ih n (by simpa using h)

theorem heapGet_set_ne {V : Type} (l : List (EntryData V)) (i j : Nat) (a : EntryData V)
    (h : i ≠ j) : heapGet (l.set i a) j = heapGet l j := by
  induction l generalizing i j with
  | nil => rfl
  | cons x t ih =>
    cases i with
    | zero =>
      cases j with
      | zero => exact absurd rfl h
      | succ m => rfl
    | succ n =>
      cases j with
      | zero => rfl
      | succ m => exact ih n m (fun hh => h (by rw [hh]))

theorem heapGet_append_left {V : Type} (l m : List (EntryData V)) (i : Nat)
    (h : i < l.length) : heapGet (l ++ m) i = heapGet l i := by
  induction l generalizing i with
  | nil => simp at h
  | cons x t ih =>
    cases i with
    | zero => rfl
    | succ n => exact ih n (by simpa using h)

theorem heapGet_append_len {V : Type} (l : List (EntryData V)) (a : EntryData V) :
    heapGet (l ++ [a]) l.length = a := by
  induction l with
  | nil => rfl
  | cons x t ih => exact ih

theorem list_set_heapGet_self {V : Type} (l : List (EntryData V)) (i : Nat)
    (h : i < l.length) : l.set i (heapGet l i) = l := by
  induction l generalizing i with
  | nil => rfl
  | cons x t ih =>
    cases i with
    | zero => rfl
    | succ n =>
      show x :: t.set n (heapGet t n) = x :: t
      rw [ih n (by simpa using h)]

theorem alFind_insert {K A : Type} [DecidableEq K] (l : List (K × A)) (k j : K) (a : A) :
    alFind (alInsert l k a) j = if k = j then some a else alFind l j := by
  induction l with
  | nil => simp [alInsert, alFind]
  | cons p t ih =>
    obtain ⟨k', a'⟩ := p
    by_cases h : k' = k
    · by_cases hj : k = j <;> simp [alInsert, alFind, h, hj]
    · by_cases hj : k' = j
      · have hkj : k ≠ j := fun hh => h (hj.trans hh.symm)
        have hjk : j ≠ k := Ne.symm hkj
        simp [alInsert, alFind, h, hj, hkj, hjk]
      · simp [alInsert, alFind, h, hj, ih]

theorem alFind_append {K A : Type} [DecidableEq K] (l m : List (K × A)) (k : K) :
    alFind (l ++ m) k =
      match alFind l k with
      | some a => some a
      | none => alFind m k := by
  induction l with
  | nil => simp [alFind]
  | cons p t ih =>
    obtain ⟨k', a'⟩ := p
    by_cases h : k' = k <;> simp [alFind, h, ih]

theorem alFind_emplace {K A : Type} [DecidableEq K] (l : List (K × A)) (k j : K) (a : A)
    (h : k ≠ j) : alFind (alEmplace l k a) j = alFind l j := by
  unfold alEmplace
  cases hf : alFind l k with
  | some b => rfl
  | none =>
    rw [alFind_append]
    cases hj : alFind l j with
    | some b => rfl
    | none => simp [alFind, if_neg h]

theorem alFind_erase_ne {K A : Type} [DecidableEq K] (l : List (K × A)) (k j : K)
    (h : k ≠ j) : alFind (alErase l k) j = alFind l j := by
  induction l with
  | nil => rfl
  | cons p t ih =>
    obtain ⟨k', a'⟩ := p
    by_cases hk : k' = k
    · simp [alErase, alFind, hk, h]
    · simp [alErase, alFind, hk, ih]

theorem mem_of_alFind {K A : Type} [DecidableEq K] {l : List (K × A)} {k : K} {a : A}
    (h : alFind l k = some a) : (k, a) ∈ l := by
  induction l with
  | nil => simp [alFind] at h
  | cons p t ih =>
    obtain ⟨k', a'⟩ := p
    by_cases hk : k' = k
    · subst hk
      simp [alFind] at h
      simp [h]
    · simp only [alFind, if_neg hk] at h
      exact List.mem_cons_of_mem _ (ih h)

theorem alFind_of_mem_nodup {K A : Type} [DecidableEq K] {l : List (K × A)} {k : K} {a : A}
    (hnd : (l.map Prod.fst).Nodup) (h : (k, a) ∈ l) : alFind l k = some a := by
  induction l with
  | nil => simp at h
  | cons p t ih =>
    obtain ⟨k', a'⟩ := p
    simp only [List.map_cons, List.nodup_cons] at hnd
    rcases List.mem_cons.mp h with h1 | h1
    · rw [Prod.mk.injEq] at h1
      obtain ⟨hk, ha⟩ := h1
      subst hk
      subst ha
      simp [alFind]
    · have hk : k' ≠ k := by
        intro hh
        subst hh
        exact hnd.1 (List.mem_map.mpr ⟨(k', a), h1, rfl⟩)
      simp only [alFind, if_neg hk]
      exact ih hnd.2 h1

/-! ### Range: iteration characterization (C7) -/

theorem entryLoad_value {V : Type} (d : EntryData V) (h : d.state = .kValue) :
    entryLoad d = (d.ptr, true) := by
  unfold entryLoad
  rw [h]

theorem tryStore_expunged {V : Type} (d : EntryData V) (v : V) (h : d.state = .kExpunged) :
    tryStore d v = (d, false) := by
  unfold tryStore
  rw [h]

theorem unexpunge_expunged {V : Type} (d : EntryData V) (h : d.state = .kExpunged) :
    unexpungeLocked d = (⟨none, .kNull⟩, true) := by
  unfold unexpungeLocked
  rw [h]

theorem entryDelete_value {V : Type} (d : EntryData V) (h : d.state = .kValue) :
    entryDelete d = (⟨none, .kNull⟩, d.ptr, true) := by
  unfold entryDelete
  rw [h]

theorem tryExpungeLocked_of_null {V : Type} (d : EntryData V) (h : d.state = .kNull) :
    tryExpungeLocked d = (⟨d.ptr, .kExpunged⟩, true) := by
  unfold tryExpungeLocked
  rw [h]

theorem tryExpungeLocked_of_value {V : Type} (d : EntryData V) (h : d.state = .kValue) :
    tryExpungeLocked d = (d, false) := by
  unfold tryExpungeLocked
  rw [h]

theorem tryExpungeLocked_of_expunged {V : Type} (d : EntryData V) (h : d.state = .kExpunged) :
    tryExpungeLocked d = (d, true) := by
  unfold tryExpungeLocked
  rw [h]

theorem tryExpungeLocked_true_state {V : Type} (d : EntryData V)
    (h : (tryExpungeLocked d).2 = true) : ((tryExpungeLocked d).1).state = .kExpunged := by
  cases hst : d.state
  · rw [tryExpungeLocked_of_null _ hst]
  · rw [tryExpungeLocked_of_value _ hst] at h
    simp at h
  · rw [tryExpungeLocked_of_expunged _ hst]
    exact hst

theorem tryExpungeLocked_false {V : Type} (d : EntryData V)
    (h : (tryExpungeLocked d).2 = false) :
    d.state = .kValue ∧ (tryExpungeLocked d).1 = d := by
  cases hst : d.state
  · rw [tryExpungeLocked_of_null _ hst] at h
    simp at h
  · exact ⟨rfl, by rw [tryExpungeLocked_of_value _ hst]⟩
  · rw [tryExpungeLocked_of_expunged _ hst] at h
    simp at h

theorem list_set_oob {A : Type} : ∀ (l : List A) (i : Nat) (a : A), l.length ≤ i → l.set i a = l
  | [], _, _, _ => rfl
  | _ :: _, 0, _, h => by simp at h
  | x :: t, n + 1, a, h => by
    show x :: t.set n a = x :: t
    rw [list_set_oob t n a (by simpa using h)]

theorem heapGet_set_state_ne_value {V : Type} (heap : List (EntryData V)) (j i : Nat)
    (d' : EntryData V) (horig : (heapGet heap j).state ≠ .kValue)
    (hd' : d'.state ≠ .kValue) : (heapGet (heap.set i d') j).state ≠ .kValue := by
  by_cases hij : i = j
  · subst hij
    by_cases hlt : i < heap.length
    · rw [heapGet_set_self _ _ _ hlt]
      exact hd'
    · rw [list_set_oob _ _ _ (Nat.le_of_not_lt hlt)]
      exact horig
  · rw [heapGet_set_ne _ _ _ _ hij]
    exact horig

theorem list_set_self_get {V : Type} (heap : List (EntryData V)) (i : Nat) :
    heap.set i (heapGet heap i) = heap := by
  by_cases h : i < heap.length
  · exact list_set_heapGet_self heap i h
  · exact list_set_oob _ _ _ (Nat.le_of_not_lt h)

theorem dirtyScan_heap_length {K V : Type} [DecidableEq K] :
    ∀ (l : Table K) (heap : List (EntryData V)) (acc : Table K),
      ((dirtyScan heap acc l).1).length = heap.length
  | [], _, _ => rfl
  | (k, e) :: t, heap, acc => by
    unfold dirtyScan
    cases hr : (tryExpungeLocked (heapGet heap e)).2 <;>
      simp only [hr, Bool.false_eq_true, if_false, if_true, ite_false, ite_true] <;>
      rw [dirtyScan_heap_length t _ _, List.length_set]

theorem dirtyScan_keeps_expunged {K V : Type} [DecidableEq K] :
    ∀ (l : Table K) (heap : List (EntryData V)) (acc : Table K) (e : Nat),
      e < heap.length → (heapGet heap e).state = .kExpunged →
      (heapGet ((dirtyScan heap acc l).1) e).state = .kExpunged
  | [], _, _, _, _, hs => hs
  | (k', e') :: t, heap, acc, e, he, hs => by
    unfold dirtyScan
    by_cases hee : e' = e
    · subst hee
      rw [tryExpungeLocked_of_expunged _ hs]
      simp only [ite_true]
      rw [list_set_heapGet_self heap e' he]
      exact dirtyScan_keeps_expunged t heap acc e' he hs
    · cases hr : (tryExpungeLocked (heapGet heap e')).2 <;>
        simp only [hr, Bool.false_eq_true, if_false, if_true, ite_false, ite_true] <;>
        exact dirtyScan_keeps_expunged t _ _ e (by rw [List.length_set]; exact he)
          (by rw [heapGet_set_ne _ _ _ _ hee]; exact hs)

theorem dirtyScan_expunges {K V : Type} [DecidableEq K] :
    ∀ (l : Table K) (heap : List (EntryData V)) (acc : Table K) (k : K) (e : Nat),
      e < heap.length → (heapGet heap e).state ≠ .kValue → (k, e) ∈ l →
      (heapGet ((dirtyScan heap acc l).1) e).state = .kExpunged
  | [], _, _, _, _, _, _, hm => absurd hm (List.not_mem_nil _)
  | (k', e') :: t, heap, acc, k, e, he, hs, hm => by
    unfold dirtyScan
    by_cases hee : e' = e
    · subst hee
      cases hstate : (heapGet heap e').state with
      | kValue => exact absurd hstate hs
      | kNull =>
        rw [tryExpungeLocked_of_null _ hstate]
        simp only [ite_true]
        have he2 : e' < (heap.set e'
            (⟨(heapGet heap e').ptr, .kExpunged⟩ : EntryData V)).length := by
          rw [List.length_set]
          exact he
        exact dirtyScan_keeps_expunged t _ acc e' he2 (by rw [heapGet_set_self _ _ _ he])
      | kExpunged =>
        rw [tryExpungeLocked_of_expunged _ hstate]
        simp only [ite_true]
        rw [list_set_heapGet_self heap e' he]
        exact dirtyScan_keeps_expunged t heap acc e' he hstate
    · have hm' : (k, e) ∈ t := by
        rcases List.mem_cons.mp hm with h1 | h1
        · rw [Prod.mk.injEq] at h1
          exact absurd h1.2.symm hee
        · exact h1
      cases hr : (tryExpungeLocked (heapGet heap e')).2 <;>
        simp only [hr, Bool.false_eq_true, if_false, if_true, ite_false, ite_true] <;>
        exact dirtyScan_expunges t _ _ k e (by rw [List.length_set]; exact he)
          (by rw [heapGet_set_ne _ _ _ _ hee]; exact hs) hm'

theorem dirtyScan_find_acc {K V : Type} [DecidableEq K] :
    ∀ (l : Table K) (heap : List (EntryData V)) (acc : Table K) (k : K) (a : Nat),
      alFind acc k = some a → alFind ((dirtyScan heap acc l).2) k = some a
  | [], _, _, _, _, h => h
  | (k', e') :: t, heap, acc, k, a, h => by
    unfold dirtyScan
    cases hr : (tryExpungeLocked (heapGet heap e')).2 <;>
      simp only [hr, Bool.false_eq_true, if_false, if_true, ite_false, ite_true]
    · apply dirtyScan_find_acc t
      unfold alEmplace
      cases hf : alFind acc k' with
      | some b => exact h
      | none => rw [alFind_append, h]
    · exact dirtyScan_find_acc t _ _ _ _ h

theorem dirtyScan_find_none {K V : Type} [DecidableEq K] :
    ∀ (l : Table K) (heap : List (EntryData V)) (acc : Table K) (k : K),
      alFind acc k = none →
      (∀ e', (k, e') ∈ l → (heapGet heap e').state ≠ .kValue) →
      alFind ((dirtyScan heap acc l).2) k = none
  | [], _, _, _, h, _ => h
  | (k', e') :: t, heap, acc, k, h, hl => by
    unfold dirtyScan
    cases hr : (tryExpungeLocked (heapGet heap e')).2 <;>
      simp only [hr, Bool.false_eq_true, if_false, if_true, ite_false, ite_true]
    · have hsv : (heapGet heap e').state = .kValue := (tryExpungeLocked_false _ hr).1
      have hkk : k' ≠ k := by
        intro hh
        subst hh
        exact hl e' (List.mem_cons_self _ _) hsv
      rw [(tryExpungeLocked_false _ hr).2, list_set_self_get]
      apply dirtyScan_find_none t
      · rw [alFind_emplace acc k' k e' hkk]
        exact h
      · intro e2 hm2
        exact hl e2 (List.mem_cons_of_mem _ hm2)
    · apply dirtyScan_find_none t _ _ _ h
      intro e2 hm2
      refine heapGet_set_state_ne_value heap e2 e' _ (hl e2 (List.mem_cons_of_mem _ hm2)) ?_
      rw [tryExpungeLocked_true_state _ hr]
      intro hh
      cases hh

@[simp] theorem setEntry_readM {K V : Type} (s : MapState K V) (e : Nat) (d : EntryData V) :
    (setEntry s e d).readM = s.readM := rfl

@[simp] theorem setEntry_amended {K V : Type} (s : MapState K V) (e : Nat) (d : EntryData V) :
    (setEntry s e d).amended = s.amended := rfl

@[simp] theorem setEntry_dirty {K V : Type} (s : MapState K V) (e : Nat) (d : EntryData V) :
    (setEntry s e d).dirty = s.dirty := rfl

@[simp] theorem setEntry_misses {K V : Type} (s : MapState K V) (e : Nat) (d : EntryData V) :
    (setEntry s e d).misses = s.misses := rfl

@[simp] theorem setEntry_heap {K V : Type} (s : MapState K V) (e : Nat) (d : EntryData V) :
    (setEntry s e d).heap = s.heap.set e d := rfl

theorem loadOp_fast {K V : Type} [DecidableEq K] (k : K) (s : MapState K V) (e : Nat)
    (hk : alFind s.readM k = some e) :
    loadOp k s = (entryLoad (getEntry s e), s) := by
  unfold loadOp loadFind
  rw [hk]

theorem rangeOp_amended {K V : Type} [DecidableEq K] (s : MapState K V) (d : Table K)
    (g : K → V → Bool) (hd : s.dirty = some d) (ha : s.amended = true) :
    rangeOp (some g) s =
      ({ s with readM := d, amended := false, dirty := none, misses := 0 },
        rangeIter g s.heap d) := by
  unfold rangeOp
  rw [ha, hd]
  simp

theorem storeOp_new {K V : Type} [DecidableEq K] (k : K) (v : V) (s : MapState K V)
    (hk : alFind s.readM k = none) (hdi : s.dirty = none) (ha : s.amended = false) :
    storeOp k v s =
      { heap := (dirtyScan s.heap [] s.readM).1 ++ [mkEntry v],
        readM := s.readM, amended := true,
        dirty := some (alInsert (dirtyScan s.heap [] s.readM).2 k
          ((dirtyScan s.heap [] s.readM).1).length),
        misses := s.misses } := by
  unfold storeOp
  rw [hk]
  unfold storeSlow
  rw [hk, hdi]
  unfold storeNew dirtyLocked
  rw [ha, hdi]
  simp

theorem storeOp_resurrect {K V : Type} [DecidableEq K] (k : K) (v : V) (s : MapState K V)
    (e : Nat) (d : Table K) (hk : alFind s.readM k = some e)
    (hst : (getEntry s e).state = .kExpunged) (hdi : s.dirty = some d) :
    storeOp k v s =
      { heap := (s.heap.set e ⟨none, .kNull⟩).set e (storeLocked v),
        readM := s.readM, amended := s.amended,
        dirty := some (alInsert d k e), misses := s.misses } := by
  unfold storeOp
  rw [hk]
  simp only [tryStore_expunged _ _ hst, Bool.false_eq_true, if_false, ite_false]
  unfold storeSlow
  rw [hk]
  simp only [unexpunge_expunged _ hst, setEntry_dirty, setEntry_heap, ite_true, if_true]
  rw [hdi]
  simp [setEntry]

@[simp] theorem getEntry_mk {K V : Type} (h : List (EntryData V)) (r : Table K)
    (a : Bool) (di : Option (Table K)) (m : Nat) (e : Nat) :
    getEntry (⟨h, r, a, di, m⟩ : MapState K V) e = heapGet h e := rfl

theorem loadOp_fast_mk {K V : Type} [DecidableEq K] (k : K) (h : List (EntryData V))
    (r : Table K) (a : Bool) (di : Option (Table K)) (m : Nat) (e : Nat)
    (hk : alFind r k = some e) :
    loadOp k (⟨h, r, a, di, m⟩ : MapState K V) =
      (entryLoad (heapGet h e), ⟨h, r, a, di, m⟩) := by
  unfold loadOp loadFind
  rw [show alFind (MapState.mk h r a di m).readM k = some e from hk]
  rfl

theorem rangeOp_amended_mk {K V : Type} [DecidableEq K] (g : K → V → Bool)
    (h : List (EntryData V)) (r d : Table K) (m : Nat) :
    rangeOp (some g) (⟨h, r, true, some d, m⟩ : MapState K V) =
      (⟨h, d, false, none, 0⟩, rangeIter g h d) := by
  unfold rangeOp
  simp

theorem liveEntries_cons {K V : Type} (heap : List (EntryData V)) (k : K) (e : Nat)
    (t : Table K) :
    liveEntries heap ((k, e) :: t) =
      match entryLoad (heapGet heap e) with
      | (some v, true) => (k, v) :: liveEntries heap t
      | _ => liveEntries heap t := by
  rcases hL : entryLoad (heapGet heap e) with ⟨v?, f⟩
  rcases v? with _ | v <;> cases f <;>
    simp [liveEntries, List.filterMap_cons, hL]

theorem visitSpec_cons {K V : Type} (g : K → V → Bool) (k : K) (v : V) (l : List (K × V)) :
    visitSpec g ((k, v) :: l) = if g k v then (k, v) :: visitSpec g l else [(k, v)] := by
  by_cases hg : g k v <;> simp [visitSpec, hg]

theorem rangeIter_eq_visitSpec {K V : Type} (g : K → V → Bool)
    (heap : List (EntryData V)) (tbl : Table K) :
    rangeIter g heap tbl = visitSpec g (liveEntries heap tbl) := by
  induction tbl with
  | nil => rfl
  | cons p t ih =>
    obtain ⟨k, e⟩ := p
    have hR : rangeIter g heap ((k, e) :: t) =
        match entryLoad (heapGet heap e) with
        | (some v, true) => if g k v then (k, v) :: rangeIter g heap t else [(k, v)]
        | _ => rangeIter g heap t := rfl
    rw [hR, liveEntries_cons]
    rcases hL : entryLoad (heapGet heap e) with ⟨v?, f⟩
    rcases v? with _ | v <;> cases f
    · simp only [hL]
      exact ih
    · simp only [hL]
      exact ih
    · simp only [hL]
      exact ih
    · simp only [hL, visitSpec_cons]
      by_cases hg : g k v <;> simp [hg, ih]

/-! ### Claims -/

/-- C1: on a freshly constructed map, `store("a",1); store("b",2)` makes
`load("a")` return `(1, true)`; then `delete("a")` returns `(1, true)`; then
`load("a")` reports not-found; then `load_or_store("a", 9)` returns
`(9, false)`; then `load("a")` returns `(9, true)`; and a final `range`
visiting every entry collects exactly `{"a" ↦ 9, "b" ↦ 2}`, in some
unspecified order. -/
theorem c1_concrete_scenario :
    (loadOp "a" sAB).1 = (some 1, true) ∧
    (deleteOp "a" (loadOp "a" sAB).2).1 = (some 1, true) ∧
    (loadOp "a" (deleteOp "a" (loadOp "a" sAB).2).2).1 = (none, false) ∧
    (loadOrStoreOp "a" 9
      (loadOp "a" (deleteOp "a" (loadOp "a" sAB).2).2).2).1 = (some 9, false) ∧
    (loadOp "a" (loadOrStoreOp "a" 9
      (loadOp "a" (deleteOp "a" (loadOp "a" sAB).2).2).2).2).1 = (some 9, true) ∧
    List.Perm (rangeOp (some fun _ _ => true) (loadOp "a" (loadOrStoreOp "a" 9
      (loadOp "a" (deleteOp "a" (loadOp "a" sAB).2).2).2).2).2).2
      [("a", 9), ("b", 2)] := by
  refine ⟨by decide, by decide, by decide, by decide, by decide, ?_⟩
  have h : (rangeOp (some fun _ _ => true)
      (loadOp "a" (loadOrStoreOp "a" 9 (loadOp "a"
        (deleteOp "a" (loadOp "a" sAB).2).2).2).2).2).2 = [("b", 2), ("a", 9)] := by
    decide
  rw [h]
  exact List.Perm.swap ("a", 9) ("b", 2) []

/-- C2: when the overlay exists (size `d.length`) and a lookup falls through
to the overlay (key absent from the amended snapshot's table), a miss is
recorded: while the incremented counter is still below the overlay's size only
the counter changes, and as soon as the counter reaches the overlay's size the
overlay is promoted — it becomes the published snapshot with
`amended = false`, the overlay pointer is cleared, and the counter resets to
zero. -/
theorem c2_miss_promotion {K V : Type} [DecidableEq K] (s : MapState K V) (d : Table K)
    (k : K) (hd : s.dirty = some d) (ha : s.amended = true)
    (hk : alFind s.readM k = none) :
    (loadOp k s).2 =
      if s.misses + 1 < d.length then { s with misses := s.misses + 1 }
      else { s with readM := d, amended := false, dirty := none, misses := 0 } := by
  have hml : missLocked s =
      if s.misses + 1 < d.length then { s with misses := s.misses + 1 }
      else { s with readM := d, amended := false, dirty := none, misses := 0 } := by
    unfold missLocked
    rw [hd]
  rw [loadOp_state]
  unfold loadFind
  rw [hk, ha]
  simp [hml, ha]

/-- Witness for C2 at a concrete state: on `sAB` (overlay of size 2, miss
counter 0) a lookup of the absent key "c" increments the miss counter without
promoting. -/
theorem c2_miss_promotion_witness :
    (loadOp "c" sAB).2 = { sAB with misses := sAB.misses + 1 } := by
  rw [c2_miss_promotion sAB [("a", 0), ("b", 1)] "c" rfl rfl rfl]
  rw [if_pos (by decide)]

/-- C5: `Entry::TryLoadOrStore(v)` returns `ok = false` and leaves the entry
unchanged when the tag is `kExpunged`; returns the already-stored value with
`loaded = true` and `ok = true`, leaving the entry unchanged, when the tag is
`kValue`; and when the tag is `kNull` it transitions the entry to `kValue`
holding `v` and returns `(v, loaded := false, ok := true)`. -/
theorem c5_tryLoadOrStore {V : Type} (d : EntryData V) (v : V) :
    (d.state = .kExpunged →
      (tryLoadOrStore d v).2.ok = false ∧ (tryLoadOrStore d v).1 = d) ∧
    (d.state = .kValue →
      (tryLoadOrStore d v).2 = ⟨d.ptr, true, true⟩ ∧ (tryLoadOrStore d v).1 = d) ∧
    (d.state = .kNull →
      (tryLoadOrStore d v).2 = ⟨some v, false, true⟩ ∧
        (tryLoadOrStore d v).1 = ⟨some v, .kValue⟩) := by
  obtain ⟨p, st⟩ := d
  cases st <;> simp [tryLoadOrStore]

/-- Witness for C5 on a concrete `kNull` entry. -/
theorem c5_tryLoadOrStore_witness :
    (tryLoadOrStore (⟨none, .kNull⟩ : EntryData Nat) 5).2 = ⟨some 5, false, true⟩ ∧
    (tryLoadOrStore (⟨none, .kNull⟩ : EntryData Nat) 5).1 = ⟨some 5, .kValue⟩ :=
  (c5_tryLoadOrStore ⟨none, .kNull⟩ 5).2.2 rfl

/-- C9: the single-argument `Load(key)` overload, as modelled from its
intended body (`loadDefaultOp`), returns the stored value when the key is
found and a default-constructed value when it is not, and has exactly the
side effects of the two-argument overload.  (The source itself calls the
nonexistent member `Get` there and does not compile when instantiated.) -/
theorem c9_load_single_arg {K V : Type} [DecidableEq K] [Inhabited V]
    (k : K) (s : MapState K V) (v : V) :
    ((loadOp k s).1 = (some v, true) → (loadDefaultOp k s).1 = v) ∧
    ((loadOp k s).1.2 = false → (loadDefaultOp k s).1 = default) ∧
    (loadDefaultOp k s).2 = (loadOp k s).2 := by
  refine ⟨?_, ?_, rfl⟩
  · intro h
    simp [loadDefaultOp, h]
  · intro h
    have hn := loadOp_not_found k s h
    simp [loadDefaultOp, hn]

/-- Witness for C9: on `sAB`, the modelled single-argument load of "a"
returns 1. -/
theorem c9_load_single_arg_witness : (loadDefaultOp "a" sAB).1 = 1 :=
  (c9_load_single_arg "a" sAB 1).1 (by decide)

/-- C10: `Map::Range` with an empty `std::function` enumerator is a no-op, not
an error: it returns immediately, invokes nothing, and leaves the published
snapshot, the overlay and the miss counter unchanged — in particular no
promotion occurs even when the snapshot is amended. -/
theorem c10_range_empty_enumerator {K V : Type} [DecidableEq K] (s : MapState K V) :
    rangeOp none s = (s, []) :=
  rfl

/-- C4: for a key k whose entry is reachable through the published snapshot's
table, after `delete(k)`, a write to a different fresh key k2 triggers overlay
construction, expunging k's now-null entry and excluding it from the overlay;
a later `store(k, v)` unexpunges that same entry and re-inserts it into the
overlay, so that `load(k)` returns `(v, true)` and k survives the next
promotion (here triggered by a `range`). -/
theorem c4_expunge_unexpunge_resurrection {K V : Type} [DecidableEq K] (s : MapState K V)
    (k k2 : K) (e : Nat) (v v2 : V)
    (hnd : (s.readM.map Prod.fst).Nodup)
    (hne : k2 ≠ k)
    (hk : alFind s.readM k = some e)
    (he : e < s.heap.length)
    (hstate : (getEntry s e).state = .kValue)
    (hd : s.dirty = none)
    (ha : s.amended = false)
    (hk2 : alFind s.readM k2 = none) :
    ∃ d2 d3,
      (storeOp k2 v2 (deleteOp k s).2).dirty = some d2 ∧
      alFind d2 k = none ∧
      (getEntry (storeOp k2 v2 (deleteOp k s).2) e).state = .kExpunged ∧
      (storeOp k v (storeOp k2 v2 (deleteOp k s).2)).dirty = some d3 ∧
      alFind d3 k = some e ∧
      (loadOp k (storeOp k v (storeOp k2 v2 (deleteOp k s).2))).1 = (some v, true) ∧
      (loadOp k (rangeOp (some fun _ _ => true)
          (storeOp k v (storeOp k2 v2 (deleteOp k s).2))).1).1 = (some v, true) := by
  -- step 1: delete k goes through the snapshot's entry, leaving it kNull
  have h1 : (deleteOp k s).2 = setEntry s e ⟨none, .kNull⟩ := by
    have hdel := entryDelete_value (getEntry s e) hstate
    unfold deleteOp deleteFind
    rw [hk]
    simp only [hdel]
  rw [h1]
  -- step 2: store k2 builds the overlay, expunging and excluding k's entry
  have h2 := storeOp_new k2 v2 (setEntry s e ⟨none, .kNull⟩) hk2 hd ha
  simp only [setEntry_readM, setEntry_heap, setEntry_misses] at h2
  rw [h2]
  obtain ⟨H2, D0, hscan⟩ :
      ∃ H2 D0, dirtyScan (s.heap.set e (⟨none, .kNull⟩ : EntryData V)) [] s.readM = (H2, D0) :=
    ⟨_, _, rfl⟩
  rw [hscan]
  have he1 : e < (s.heap.set e (⟨none, .kNull⟩ : EntryData V)).length := by
    rw [List.length_set]
    exact he
  have hnull : (heapGet (s.heap.set e (⟨none, .kNull⟩ : EntryData V)) e).state = .kNull := by
    rw [heapGet_set_self _ _ _ he]
  have hH2len : H2.length = s.heap.length := by
    have hx := dirtyScan_heap_length s.readM (s.heap.set e (⟨none, .kNull⟩ : EntryData V)) []
    rw [hscan] at hx
    simpa using hx
  have heH2 : e < H2.length := by
    rw [hH2len]
    exact he
  have hexpH2 : (heapGet H2 e).state = .kExpunged := by
    have hx := dirtyScan_expunges s.readM (s.heap.set e (⟨none, .kNull⟩ : EntryData V)) [] k e
      he1 (by rw [hnull]; intro hh; cases hh) (mem_of_alFind hk)
    rw [hscan] at hx
    exact hx
  have hD0 : alFind D0 k = none := by
    have hx := dirtyScan_find_none s.readM (s.heap.set e (⟨none, .kNull⟩ : EntryData V)) [] k
      rfl ?occ
    case occ =>
      intro e2 hm2
      have h3 := alFind_of_mem_nodup hnd hm2
      rw [hk] at h3
      have he2 : e2 = e := by
        injection h3 with hh
        exact hh.symm
      subst he2
      rw [hnull]
      intro hh
      cases hh
    rw [hscan] at hx
    exact hx
  have hexp2 : (heapGet (H2 ++ [mkEntry v2]) e).state = .kExpunged := by
    rw [heapGet_append_left _ _ _ heH2]
    exact hexpH2
  have hd3find : alFind (alInsert (alInsert D0 k2 H2.length) k e) k = some e := by
    rw [alFind_insert, if_pos rfl]
  have hlen2 : e < ((H2 ++ [mkEntry v2]).set e (⟨none, .kNull⟩ : EntryData V)).length := by
    rw [List.length_set, List.length_append]
    exact Nat.lt_of_lt_of_le heH2 (Nat.le_add_right _ _)
  refine ⟨alInsert D0 k2 H2.length, alInsert (alInsert D0 k2 H2.length) k e,
    rfl, ?_, hexp2, ?_, hd3find, ?_, ?_⟩
  · rw [alFind_insert, if_neg hne]
    exact hD0
  -- step 3: store k resurrects the entry into the overlay
  all_goals
    have h3 := storeOp_resurrect k v
      ({ heap := H2 ++ [mkEntry v2], readM := s.readM, amended := true,
         dirty := some (alInsert D0 k2 H2.length), misses := s.misses } : MapState K V)
      e (alInsert D0 k2 H2.length) hk hexp2 rfl
  all_goals rw [h3]
  all_goals try dsimp only
  · -- load k after the resurrecting store
    rw [loadOp_fast_mk k _ _ _ _ _ e hk]
    dsimp only
    rw [heapGet_set_self _ _ _ hlen2]
    rfl
  · -- promotion via range, then load k
    rw [rangeOp_amended_mk]
    dsimp only
    rw [loadOp_fast_mk k _ _ _ _ _ e hd3find]
    dsimp only
    rw [heapGet_set_self _ _ _ hlen2]
    rfl

/-- Witness for C4 on the concrete state `sA` (snapshot holding "a" at entry
0, no overlay): delete "a", store "b", store "a" again, reload. -/
theorem c4_expunge_unexpunge_resurrection_witness :
    ∃ d2 d3,
      (storeOp "b" 2 (deleteOp "a" sA).2).dirty = some d2 ∧
      alFind d2 "a" = none ∧
      (getEntry (storeOp "b" 2 (deleteOp "a" sA).2) 0).state = .kExpunged ∧
      (storeOp "a" 7 (storeOp "b" 2 (deleteOp "a" sA).2)).dirty = some d3 ∧
      alFind d3 "a" = some 0 ∧
      (loadOp "a" (storeOp "a" 7 (storeOp "b" 2 (deleteOp "a" sA).2))).1 = (some 7, true) ∧
      (loadOp "a" (rangeOp (some fun _ _ => true)
          (storeOp "a" 7 (storeOp "b" 2 (deleteOp "a" sA).2))).1).1 = (some 7, true) :=
  c4_expunge_unexpunge_resurrection sA "a" "b" 0 7 2 (by decide) (by decide) (by decide)
    (by decide) (by decide) (by decide) (by decide) (by decide)

/-- C7: whenever the published snapshot is amended, `Map::Range` with any
non-empty enumerator — including one that immediately returns false — first
promotes the overlay unconditionally (the overlay becomes the published
snapshot with `amended = false` and the overlay pointer is cleared), and then
iterates that table, invoking the enumerator exactly on the entries whose
`Load` reports found, in table order, stopping early after the first
invocation that returns false. -/
theorem c7_range_promotes {K V : Type} [DecidableEq K] (s : MapState K V) (d : Table K)
    (g : K → V → Bool) (hd : s.dirty = some d) (ha : s.amended = true) :
    (rangeOp (some g) s).1 =
      { s with readM := d, amended := false, dirty := none, misses := 0 } ∧
    (rangeOp (some g) s).2 = visitSpec g (liveEntries s.heap d) := by
  rw [rangeOp_amended s d g hd ha]
  exact ⟨rfl, rangeIter_eq_visitSpec g s.heap d⟩

/-- Witness for C7 on `sAB` with the constantly-false enumerator: the overlay
is promoted even though the traversal stops at the first entry. -/
theorem c7_range_promotes_witness :
    (rangeOp (some fun (_ : String) (_ : Nat) => false) sAB).1 =
      { sAB with readM := [("a", 0), ("b", 1)], amended := false, dirty := none, misses := 0 } ∧
    (rangeOp (some fun (_ : String) (_ : Nat) => false) sAB).2 =
      visitSpec (fun _ _ => false) (liveEntries sAB.heap [("a", 0), ("b", 1)]) :=
  c7_range_promotes sAB [("a", 0), ("b", 1)] (fun _ _ => false) rfl rfl

theorem alFind_none_iff {K A : Type} [DecidableEq K] (l : List (K × A)) (k : K) :
    alFind l k = none ↔ k ∉ l.map Prod.fst := by
  induction l with
  | nil => simp [alFind]
  | cons p t ih =>
    obtain ⟨k', a'⟩ := p
    by_cases h : k' = k
    · simp [alFind, h]
    · simp only [alFind, if_neg h, ih, List.map_cons, List.mem_cons]
      have hne : ¬ k = k' := fun hh => h hh.symm
      tauto

theorem alErase_keys_sublist {K A : Type} [DecidableEq K] (l : List (K × A)) (k : K) :
    List.Sublist ((alErase l k).map Prod.fst) (l.map Prod.fst) := by
  induction l with
  | nil => simp [alErase]
  | cons p t ih =>
    obtain ⟨k', a'⟩ := p
    by_cases h : k' = k
    · simp only [alErase, if_pos h]
      exact List.Sublist.cons _ (List.Sublist.refl _)
    · simp only [alErase, if_neg h, List.map_cons]
      exact List.Sublist.cons₂ _ ih

theorem alErase_keys_nodup {K A : Type} [DecidableEq K] (l : List (K × A)) (k : K)
    (h : (l.map Prod.fst).Nodup) : ((alErase l k).map Prod.fst).Nodup :=
  (alErase_keys_sublist l k).nodup h

theorem alFind_erase_self {K A : Type} [DecidableEq K] (l : List (K × A)) (k : K)
    (hnd : (l.map Prod.fst).Nodup) : alFind (alErase l k) k = none := by
  induction l with
  | nil => rfl
  | cons p t ih =>
    obtain ⟨k', a'⟩ := p
    simp only [List.map_cons, List.nodup_cons] at hnd
    by_cases h : k' = k
    · subst h
      simp only [alErase, if_pos rfl]
      exact (alFind_none_iff t k').mpr hnd.1
    · simp only [alErase, if_neg h, alFind, if_neg h]
      exact ih hnd.2

theorem mem_keys_alInsert {K A : Type} [DecidableEq K] (l : List (K × A)) (k j : K) (a : A) :
    j ∈ (alInsert l k a).map Prod.fst ↔ j ∈ l.map Prod.fst ∨ j = k := by
  induction l with
  | nil => simp [alInsert]
  | cons p t ih =>
    obtain ⟨k', a'⟩ := p
    by_cases h : k' = k
    · subst h
      simp [alInsert]
      tauto
    · simp [alInsert, if_neg h, ih]
      tauto

theorem alInsert_keys_nodup {K A : Type} [DecidableEq K] (l : List (K × A)) (k : K) (a : A)
    (h : (l.map Prod.fst).Nodup) : ((alInsert l k a).map Prod.fst).Nodup := by
  induction l with
  | nil => simp [alInsert]
  | cons p t ih =>
    obtain ⟨k', a'⟩ := p
    simp only [List.map_cons, List.nodup_cons] at h
    by_cases hk : k' = k
    · subst hk
      simpa [alInsert] using h
    · simp only [alInsert, if_neg hk, List.map_cons, List.nodup_cons]
      constructor
      · intro hmem
        rcases (mem_keys_alInsert t k k' a).mp hmem with hm | hm
        · exact h.1 hm
        · exact hk hm
      · exact ih h.2

theorem dirtyScan_keeps_value {K V : Type} [DecidableEq K] :
    ∀ (l : Table K) (heap : List (EntryData V)) (acc : Table K) (e : Nat),
      (heapGet heap e).state = .kValue →
      heapGet ((dirtyScan heap acc l).1) e = heapGet heap e
  | [], _, _, _, _ => rfl
  | (k', e') :: t, heap, acc, e, hs => by
    unfold dirtyScan
    by_cases hee : e' = e
    · subst hee
      rw [tryExpungeLocked_of_value _ hs]
      simp only [Bool.false_eq_true, if_false, ite_false]
      rw [list_set_self_get]
      exact dirtyScan_keeps_value t heap _ e' hs
    · cases hr : (tryExpungeLocked (heapGet heap e')).2 <;>
        simp only [hr, Bool.false_eq_true, if_false, if_true, ite_false, ite_true] <;>
        rw [dirtyScan_keeps_value t _ _ e (by rw [heapGet_set_ne _ _ _ _ hee]; exact hs),
          heapGet_set_ne _ _ _ _ hee]

theorem dirtyScan_untouched {K V : Type} [DecidableEq K] :
    ∀ (l : Table K) (heap : List (EntryData V)) (acc : Table K) (e : Nat),
      (∀ k, (k, e) ∉ l) → heapGet ((dirtyScan heap acc l).1) e = heapGet heap e
  | [], _, _, _, _ => rfl
  | (k', e') :: t, heap, acc, e, hm => by
    have hee : e' ≠ e := by
      intro hh
      exact hm k' (by rw [hh]; exact List.mem_cons_self _ _)
    have hm' : ∀ k, (k, e) ∉ t := fun k hk => hm k (List.mem_cons_of_mem _ hk)
    unfold dirtyScan
    cases hr : (tryExpungeLocked (heapGet heap e')).2 <;>
      simp only [hr, Bool.false_eq_true, if_false, if_true, ite_false, ite_true] <;>
      rw [dirtyScan_untouched t _ _ e hm', heapGet_set_ne _ _ _ _ hee]

theorem dirtyScan_find_some {K V : Type} [DecidableEq K] :
    ∀ (l : Table K) (heap : List (EntryData V)) (acc : Table K) (j : K) (e : Nat),
      alFind ((dirtyScan heap acc l).2) j = some e →
      alFind acc j = some e ∨ ((j, e) ∈ l ∧ (heapGet heap e).state = .kValue)
  | [], _, _, _, _, h => Or.inl h
  | (k', e') :: t, heap, acc, j, e, h => by
    revert h
    unfold dirtyScan
    cases hr : (tryExpungeLocked (heapGet heap e')).2 <;>
      simp only [hr, Bool.false_eq_true, if_false, if_true, ite_false, ite_true] <;>
      intro h
    · -- survivor: head entry has tag kValue, heap unchanged, key emplaced
      have hsv := tryExpungeLocked_false _ hr
      rw [hsv.2, list_set_self_get] at h
      rcases dirtyScan_find_some t heap _ j e h with hacc | ⟨hmem, hst⟩
      · unfold alEmplace at hacc
        cases hf : alFind acc k' with
        | some b =>
          rw [hf] at hacc
          exact Or.inl hacc
        | none =>
          rw [hf, alFind_append] at hacc
          cases hj : alFind acc j with
          | some b =>
            rw [hj] at hacc
            exact Or.inl hacc
          | none =>
            rw [hj] at hacc
            by_cases hjk : k' = j
            · subst hjk
              simp only [alFind, if_pos rfl] at hacc
              injection hacc with hacc
              subst hacc
              exact Or.inr ⟨List.mem_cons_self _ _, hsv.1⟩
            · simp only [alFind, if_neg hjk] at hacc
              cases hacc
      · exact Or.inr ⟨List.mem_cons_of_mem _ hmem, hst⟩
    · -- head excluded; entry e' now expunged in the scanned heap
      rcases dirtyScan_find_some t _ _ j e h with hacc | ⟨hmem, hst⟩
      · exact Or.inl hacc
      · right
        refine ⟨List.mem_cons_of_mem _ hmem, ?_⟩
        by_cases hee : e' = e
        · subst hee
          by_cases hlt : e' < heap.length
          · rw [heapGet_set_self _ _ _ hlt] at hst
            rw [tryExpungeLocked_true_state _ hr] at hst
            cases hst
          · rw [list_set_oob _ _ _ (Nat.le_of_not_lt hlt)] at hst
            exact hst
        · rw [heapGet_set_ne _ _ _ _ hee] at hst
          exact hst

theorem dirtyScan_find_of_value {K V : Type} [DecidableEq K] :
    ∀ (l : Table K) (heap : List (EntryData V)) (acc : Table K) (j : K) (e : Nat),
      (l.map Prod.fst).Nodup → (j, e) ∈ l → (heapGet heap e).state = .kValue →
      alFind acc j = none →
      alFind ((dirtyScan heap acc l).2) j = some e
  | [], _, _, _, _, _, hm, _, _ => absurd hm (List.not_mem_nil _)
  | (k', e') :: t, heap, acc, j, e, hnd, hm, hst, hacc => by
    simp only [List.map_cons, List.nodup_cons] at hnd
    rcases List.mem_cons.mp hm with h1 | h1
    · -- the head is (j, e) itself: it survives and is emplaced
      rw [Prod.mk.injEq] at h1
      obtain ⟨hj, he⟩ := h1
      subst hj
      subst he
      unfold dirtyScan
      rw [tryExpungeLocked_of_value _ hst]
      simp only [Bool.false_eq_true, if_false, ite_false]
      rw [list_set_self_get]
      apply dirtyScan_find_acc
      unfold alEmplace
      rw [hacc, alFind_append, hacc]
      simp [alFind]
    · -- (j, e) sits in the tail; the head key differs
      have hkj : k' ≠ j := by
        intro hh
        subst hh
        exact hnd.1 (List.mem_map.mpr ⟨(k', e), h1, rfl⟩)
      unfold dirtyScan
      cases hr : (tryExpungeLocked (heapGet heap e')).2 <;>
        simp only [hr, Bool.false_eq_true, if_false, if_true, ite_false, ite_true]
      · rw [(tryExpungeLocked_false _ hr).2, list_set_self_get]
        exact dirtyScan_find_of_value t heap _ j e hnd.2 h1 hst
          (by rw [alFind_emplace _ _ _ _ hkj]; exact hacc)
      · refine dirtyScan_find_of_value t _ _ j e hnd.2 h1 ?_ hacc
        by_cases hee : e' = e
        · subst hee
          rw [tryExpungeLocked_of_value _ hst] at hr
          simp at hr
        · rw [heapGet_set_ne _ _ _ _ hee]
          exact hst

theorem dirtyScan_keys_nodup {K V : Type} [DecidableEq K] :
    ∀ (l : Table K) (heap : List (EntryData V)) (acc : Table K),
      ((acc.map Prod.fst).Nodup) → ((l.map Prod.fst).Nodup) →
      (∀ p, p ∈ l → alFind acc p.1 = none) →
      (((dirtyScan heap acc l).2).map Prod.fst).Nodup
  | [], _, _, ha, _, _ => ha
  | (k', e') :: t, heap, acc, ha, hl, hdisj => by
    simp only [List.map_cons, List.nodup_cons] at hl
    unfold dirtyScan
    cases hr : (tryExpungeLocked (heapGet heap e')).2 <;>
      simp only [hr, Bool.false_eq_true, if_false, if_true, ite_false, ite_true]
    · -- survivor: emplaced
      have hacc : alFind acc k' = none := hdisj (k', e') (List.mem_cons_self _ _)
      apply dirtyScan_keys_nodup t _ _ ?_ hl.2
      · intro p hp
        unfold alEmplace
        rw [hacc, alFind_append]
        cases hq : alFind acc p.1 with
        | some b =>
          exact absurd hq (by rw [hdisj p (List.mem_cons_of_mem _ hp)]; simp)
        | none =>
          have : k' ≠ p.1 := by
            intro hh
            exact hl.1 (hh ▸ List.mem_map.mpr ⟨p, hp, rfl⟩)
          simp [alFind, this]
      · unfold alEmplace
        rw [hacc]
        simp only [List.map_append]
        rw [List.nodup_append]
        refine ⟨ha, by simp, ?_⟩
        intro x hx
        simp only [List.map_cons, List.map_nil, List.mem_singleton]
        intro hh
        subst hh
        exact absurd ((alFind_none_iff acc x).mp hacc) (fun hcon => hcon hx)
    · exact dirtyScan_keys_nodup t _ _ ha hl.2
        (fun p hp => hdisj p (List.mem_cons_of_mem _ hp))

theorem inv_empty {K V : Type} [DecidableEq K] : Inv (emptyMap : MapState K V) := by
  have hre : ∀ (k : K) (e : Nat), ¬ inTables (emptyMap : MapState K V) k e := by
    intro k e hin
    rcases hin with hin | ⟨d, hd, _⟩
    · simp [emptyMap, alFind] at hin
    · simp [emptyMap] at hd
  refine ⟨by simp [emptyMap], ?_, ?_, ?_, ?_, ?_, ?_, ?_⟩
  · intro k e hin
    exact absurd hin (hre k e)
  · intro k j e hk _
    exact absurd hk (hre k e)
  · simp [emptyMap]
  · intro d hd
    simp [emptyMap] at hd
  · intro d k e hd
    simp [emptyMap] at hd
  · intro d k e hd
    simp [emptyMap] at hd
  · intro e he
    simp [emptyMap] at he

/-- The invariant does not mention the miss counter. -/
theorem inv_misses {K V : Type} [DecidableEq K] (s : MapState K V) (m : Nat) (h : Inv s) :
    Inv { s with misses := m } :=
  ⟨h.amendedDirty, h.ids, h.unique, h.nodupRead, h.nodupDirty, h.dirtyNotExpunged,
    h.readInDirty, h.wf⟩

/-- Promotion publishes the overlay: the resulting state keeps the heap and
has no overlay. -/
theorem inv_promote {K V : Type} [DecidableEq K] (s : MapState K V) (d : Table K)
    (h : Inv s) (hd : s.dirty = some d) :
    Inv { s with readM := d, amended := false, dirty := none, misses := 0 } := by
  refine ⟨by simp, ?_, ?_, ?_, ?_, ?_, ?_, h.wf⟩
  · intro k e hin
    rcases hin with hin | ⟨d', hd', _⟩
    · exact h.ids k e (Or.inr ⟨d, hd, hin⟩)
    · cases hd'
  · intro k j e hk hj
    rcases hk with hk | ⟨d', hd', _⟩
    · rcases hj with hj | ⟨d', hd', _⟩
      · exact h.unique k j e (Or.inr ⟨d, hd, hk⟩) (Or.inr ⟨d, hd, hj⟩)
      · cases hd'
    · cases hd'
  · exact h.nodupDirty d hd
  · intro d' hd'
    cases hd'
  · intro d' k e hd'
    cases hd'
  · intro d' k e hd'
    cases hd'

theorem inv_missLocked {K V : Type} [DecidableEq K] (s : MapState K V) (h : Inv s) :
    Inv (missLocked s) := by
  unfold missLocked
  cases hd : s.dirty with
  | none =>
    have heq : ({ s with misses := s.misses + 1 } : MapState K V) =
        MapState.mk s.heap s.readM s.amended none (s.misses + 1) := by
      rw [hd]
    rw [← heq]
    exact inv_misses s _ h
  | some d =>
    by_cases hm : s.misses + 1 < d.length
    · simp only [if_pos hm]
      have heq : ({ s with misses := s.misses + 1 } : MapState K V) =
          MapState.mk s.heap s.readM s.amended (some d) (s.misses + 1) := by
        rw [hd]
      rw [← heq]
      exact inv_misses s _ h
    · simp only [if_neg hm]
      exact inv_promote s d h hd

theorem setEntry_self {K V : Type} (s : MapState K V) (e : Nat) :
    setEntry s e (getEntry s e) = s := by
  unfold setEntry getEntry
  rw [list_set_self_get]

/-- Overwriting a non-expunged entry with a non-expunged well-formed record
preserves the invariant. -/
theorem inv_setEntry {K V : Type} [DecidableEq K] (s : MapState K V) (e : Nat)
    (d' : EntryData V) (h : Inv s)
    (hold : (getEntry s e).state ≠ .kExpunged)
    (hnew : d'.state ≠ .kExpunged)
    (hwf : d'.state = .kValue → d'.ptr.isSome) :
    Inv (setEntry s e d') := by
  by_cases he : e < s.heap.length
  case neg =>
    unfold setEntry
    rw [list_set_oob _ _ _ (Nat.le_of_not_lt he)]
    exact h
  have hget : ∀ j, getEntry (setEntry s e d') j = if e = j then d' else getEntry s j := by
    intro j
    by_cases hej : e = j
    · subst hej
      simp only [if_pos rfl]
      unfold getEntry setEntry
      exact heapGet_set_self _ _ _ he
    · simp only [if_neg hej]
      unfold getEntry setEntry
      exact heapGet_set_ne _ _ _ _ hej
  refine ⟨h.amendedDirty, ?_, h.unique, h.nodupRead, h.nodupDirty, ?_, ?_, ?_⟩
  · intro k e2 hin
    have := h.ids k e2 hin
    simpa [setEntry] using this
  · intro d k e2 hd hf
    rw [hget e2]
    by_cases hej : e = e2
    · simp only [if_pos hej]
      exact hnew
    · simp only [if_neg hej]
      exact h.dirtyNotExpunged d k e2 hd hf
  · intro d k e2 hd hf hst
    by_cases hej : e = e2
    · subst hej
      exact h.readInDirty d k e hd hf hold
    · rw [hget e2, if_neg hej] at hst
      exact h.readInDirty d k e2 hd hf hst
  · intro e2 he2
    rw [hget e2]
    by_cases hej : e = e2
    · simp only [if_pos hej]
      exact hwf
    · simp only [if_neg hej]
      exact h.wf e2 (by simpa [setEntry] using he2)

/-- Erasing a key that is not in the snapshot's table from the overlay
preserves the invariant. -/
theorem inv_erase_dirty {K V : Type} [DecidableEq K] (s : MapState K V) (d : Table K)
    (k : K) (h : Inv s) (hd : s.dirty = some d) (hk : alFind s.readM k = none) :
    Inv { s with dirty := some (alErase d k) } := by
  have hnd := h.nodupDirty d hd
  refine ⟨?_, ?_, ?_, h.nodupRead, ?_, ?_, ?_, h.wf⟩
  · have := h.amendedDirty
    rw [hd] at this
    simpa using this
  · intro k2 e2 hin
    rcases hin with hin | ⟨d', hd', hf⟩
    · exact h.ids k2 e2 (Or.inl hin)
    · injection hd' with hd'
      subst hd'
      by_cases hkk : k = k2
      · subst hkk
        rw [alFind_erase_self d k hnd] at hf
        cases hf
      · rw [alFind_erase_ne _ _ _ hkk] at hf
        exact h.ids k2 e2 (Or.inr ⟨d, hd, hf⟩)
  · intro k2 j e2 hk2 hj
    have htr : ∀ k3, inTables { s with dirty := some (alErase d k) } k3 e2 →
        inTables s k3 e2 := by
      intro k3 hin
      rcases hin with hin | ⟨d', hd', hf⟩
      · exact Or.inl hin
      · injection hd' with hd'
        subst hd'
        by_cases hkk : k = k3
        · subst hkk
          rw [alFind_erase_self d k hnd] at hf
          cases hf
        · rw [alFind_erase_ne _ _ _ hkk] at hf
          exact Or.inr ⟨d, hd, hf⟩
    exact h.unique k2 j e2 (htr k2 hk2) (htr j hj)
  · intro d' hd'
    injection hd' with hd'
    subst hd'
    exact alErase_keys_nodup d k hnd
  · intro d' k2 e2 hd' hf
    injection hd' with hd'
    subst hd'
    by_cases hkk : k = k2
    · subst hkk
      rw [alFind_erase_self d k hnd] at hf
      cases hf
    · rw [alFind_erase_ne _ _ _ hkk] at hf
      exact h.dirtyNotExpunged d k2 e2 hd hf
  · intro d' k2 e2 hd' hf hst
    injection hd' with hd'
    subst hd'
    have hkk : k ≠ k2 := by
      intro hh
      subst hh
      rw [hk] at hf
      cases hf
    rw [alFind_erase_ne _ _ _ hkk]
    exact h.readInDirty d k2 e2 hd hf hst

theorem missLocked_heap {K V : Type} [DecidableEq K] (s : MapState K V) :
    (missLocked s).heap = s.heap := by
  unfold missLocked
  cases s.dirty with
  | none => rfl
  | some d =>
    dsimp only
    split <;> rfl

/-- A drained state (empty snapshot, no overlay) over any heap satisfies the
invariant. -/
theorem inv_drained {K V : Type} [DecidableEq K] (s : MapState K V) (h : Inv s) :
    Inv (⟨s.heap, [], false, none, 0⟩ : MapState K V) := by
  refine ⟨by simp, ?_, ?_, by simp, ?_, ?_, ?_, h.wf⟩
  · intro k e hin
    rcases hin with hin | ⟨d, hd, _⟩
    · simp [alFind] at hin
    · cases hd
  · intro k j e hk _
    rcases hk with hk | ⟨d, hd, _⟩
    · simp [alFind] at hk
    · cases hd
  · intro d hd
    cases hd
  · intro d k e hd
    cases hd
  · intro d k e hd
    cases hd

/-- Overwriting any entry when no overlay exists preserves the invariant. -/
theorem inv_setEntry_nodirty {K V : Type} [DecidableEq K] (s : MapState K V) (e : Nat)
    (d' : EntryData V) (h : Inv s) (hdi : s.dirty = none)
    (hwf : d'.state = .kValue → d'.ptr.isSome) :
    Inv (setEntry s e d') := by
  by_cases he : e < s.heap.length
  case neg =>
    unfold setEntry
    rw [list_set_oob _ _ _ (Nat.le_of_not_lt he)]
    exact h
  refine ⟨h.amendedDirty, ?_, h.unique, h.nodupRead, h.nodupDirty, ?_, ?_, ?_⟩
  · intro k e2 hin
    have := h.ids k e2 hin
    simpa [setEntry] using this
  · intro d k e2 hd
    rw [show (setEntry s e d').dirty = s.dirty from rfl, hdi] at hd
    cases hd
  · intro d k e2 hd
    rw [show (setEntry s e d').dirty = s.dirty from rfl, hdi] at hd
    cases hd
  · intro e2 he2
    unfold getEntry setEntry
    by_cases hej : e = e2
    · subst hej
      rw [heapGet_set_self _ _ _ he]
      exact hwf
    · rw [heapGet_set_ne _ _ _ _ hej]
      exact h.wf e2 (by simpa [setEntry] using he2)

/-- Building the overlay for a fresh key (the `!read.amended` branch of
`Store`/`LoadOrStore` when no overlay exists) preserves the invariant. -/
theorem inv_new_build {K V : Type} [DecidableEq K] (s : MapState K V) (k : K) (v : V)
    (h : Inv s) (hk : alFind s.readM k = none) :
    Inv (⟨(dirtyScan s.heap [] s.readM).1 ++ [mkEntry v], s.readM, true,
      some (alInsert (dirtyScan s.heap [] s.readM).2 k
        ((dirtyScan s.heap [] s.readM).1).length), s.misses⟩ : MapState K V) := by
  rcases hscan : dirtyScan s.heap [] s.readM with ⟨H, D0⟩
  dsimp only
  have hlen : H.length = s.heap.length := by
    have hx := dirtyScan_heap_length s.readM s.heap []
    rw [hscan] at hx
    exact hx
  have hfind_some : ∀ j e2, alFind D0 j = some e2 →
      (j, e2) ∈ s.readM ∧ (heapGet s.heap e2).state = .kValue := by
    intro j e2 hf
    have hx := dirtyScan_find_some s.readM s.heap [] j e2 (by rw [hscan]; exact hf)
    rcases hx with hacc | h2
    · simp [alFind] at hacc
    · exact h2
  have hfind_val : ∀ j e2, (j, e2) ∈ s.readM → (heapGet s.heap e2).state = .kValue →
      alFind D0 j = some e2 := by
    intro j e2 hm hst
    have hx := dirtyScan_find_of_value s.readM s.heap [] j e2 h.nodupRead hm hst rfl
    rw [hscan] at hx
    exact hx
  have hheap_val : ∀ e2, (heapGet s.heap e2).state = .kValue →
      heapGet H e2 = heapGet s.heap e2 := by
    intro e2 hst
    have hx := dirtyScan_keeps_value s.readM s.heap [] e2 hst
    rw [hscan] at hx
    exact hx
  have hheap_exp : ∀ j e2, e2 < s.heap.length → (heapGet s.heap e2).state ≠ .kValue →
      (j, e2) ∈ s.readM → (heapGet H e2).state = .kExpunged := by
    intro j e2 he2 hst hm
    have hx := dirtyScan_expunges s.readM s.heap [] j e2 he2 hst hm
    rw [hscan] at hx
    exact hx
  have hheap_unt : ∀ e2, (∀ j, (j, e2) ∉ s.readM) → heapGet H e2 = heapGet s.heap e2 := by
    intro e2 hnm
    have hx := dirtyScan_untouched s.readM s.heap [] e2 hnm
    rw [hscan] at hx
    exact hx
  have hnodupD0 : (D0.map Prod.fst).Nodup := by
    have hx := dirtyScan_keys_nodup s.readM s.heap [] (by simp) h.nodupRead
      (fun p _ => rfl)
    rw [hscan] at hx
    exact hx
  have hmkv : heapGet (H ++ [mkEntry v]) H.length = mkEntry v := heapGet_append_len H _
  have hlow : ∀ e2, e2 < H.length → heapGet (H ++ [mkEntry v]) e2 = heapGet H e2 :=
    fun e2 he2 => heapGet_append_left _ _ _ he2
  have htab : ∀ j e2, alFind (alInsert D0 k H.length) j = some e2 →
      (j = k ∧ e2 = H.length) ∨ (alFind s.readM j = some e2 ∧
        (heapGet s.heap e2).state = .kValue) := by
    intro j e2 hf
    rw [alFind_insert] at hf
    by_cases hjk : k = j
    · rw [if_pos hjk] at hf
      injection hf with hf
      exact Or.inl ⟨hjk.symm, hf.symm⟩
    · rw [if_neg hjk] at hf
      have h2 := hfind_some j e2 hf
      exact Or.inr ⟨alFind_of_mem_nodup h.nodupRead h2.1, h2.2⟩
  refine ⟨by simp, ?_, ?_, h.nodupRead, ?_, ?_, ?_, ?_⟩
  · -- ids
    intro j e2 hin
    rcases hin with hin | ⟨d', hd', hf⟩
    · have hb := h.ids j e2 (Or.inl hin)
      simp only [List.length_append]
      omega
    · injection hd' with hd'
      subst hd'
      rcases htab j e2 hf with ⟨_, he2⟩ | ⟨hf2, _⟩
      · subst he2
        simp [List.length_append]
      · have hb := h.ids j e2 (Or.inl hf2)
        simp only [List.length_append]
        omega
  · -- unique
    intro j j2 e2 hj hj2
    have htr : ∀ j3, inTables (⟨H ++ [mkEntry v], s.readM, true,
        some (alInsert D0 k H.length), s.misses⟩ : MapState K V) j3 e2 →
        alFind s.readM j3 = some e2 ∨ (j3 = k ∧ e2 = H.length) := by
      intro j3 hin
      rcases hin with hin | ⟨d', hd', hf⟩
      · exact Or.inl hin
      · injection hd' with hd'
        subst hd'
        rcases htab j3 e2 hf with hx | hx
        · exact Or.inr hx
        · exact Or.inl hx.1
    rcases htr j hj with hx | ⟨hx, he2⟩
    · rcases htr j2 hj2 with hy | ⟨hy, he2⟩
      · exact h.unique j j2 e2 (Or.inl hx) (Or.inl hy)
      · subst he2
        have hb := h.ids j _ (Or.inl hx)
        omega
    · rcases htr j2 hj2 with hy | ⟨hy, hy2⟩
      · subst he2
        have hb := h.ids j2 _ (Or.inl hy)
        omega
      · rw [hx, hy]
  · -- nodupDirty
    intro d' hd'
    injection hd' with hd'
    subst hd'
    exact alInsert_keys_nodup D0 k H.length hnodupD0
  · -- dirtyNotExpunged
    intro d' j e2 hd' hf
    injection hd' with hd'
    subst hd'
    rcases htab j e2 hf with ⟨_, he2⟩ | ⟨hfRM, hst⟩
    · subst he2
      unfold getEntry
      dsimp only
      rw [hmkv]
      intro hh
      cases hh
    · have he2 : e2 < H.length := by
        rw [hlen]
        exact h.ids j e2 (Or.inl hfRM)
      unfold getEntry
      dsimp only
      rw [hlow e2 he2, hheap_val e2 hst, hst]
      intro hh
      cases hh
  · -- readInDirty
    intro d' j e2 hd' hfRM hstNew
    injection hd' with hd'
    subst hd'
    have hjk : k ≠ j := by
      intro hh
      rw [← hh, hk] at hfRM
      cases hfRM
    rw [alFind_insert, if_neg hjk]
    have hm := mem_of_alFind hfRM
    have he2 : e2 < s.heap.length := h.ids j e2 (Or.inl hfRM)
    by_cases hknull : (heapGet s.heap e2).state = .kValue
    · exact hfind_val j e2 hm hknull
    · exfalso
      apply hstNew
      show (heapGet (H ++ [mkEntry v]) e2).state = .kExpunged
      rw [hlow e2 (by rw [hlen]; exact he2)]
      exact hheap_exp j e2 he2 hknull hm
  · -- wf
    intro e2 he2
    show (heapGet (H ++ [mkEntry v]) e2).state = .kValue →
      (heapGet (H ++ [mkEntry v]) e2).ptr.isSome
    by_cases hee : e2 = H.length
    · subst hee
      rw [hmkv]
      intro _
      simp [mkEntry]
    · have hb : e2 < H.length := by
        simp only [List.length_append] at he2
        simp only [List.length_singleton] at he2
        omega
      rw [hlow e2 hb]
      by_cases hv : (heapGet s.heap e2).state = .kValue
      · rw [hheap_val e2 hv]
        exact h.wf e2 (by rw [← hlen]; exact hb)
      · by_cases hp : ∃ j, (j, e2) ∈ s.readM
        · obtain ⟨j, hj⟩ := hp
          rw [hheap_exp j e2 (by rw [← hlen]; exact hb) hv hj]
          intro hh
          cases hh
        · push_neg at hp
          rw [hheap_unt e2 hp]
          exact h.wf e2 (by rw [← hlen]; exact hb)

/-- Inserting a fresh entry for a new key into an existing overlay preserves
the invariant. -/
theorem inv_new_amended {K V : Type} [DecidableEq K] (s : MapState K V) (d : Table K)
    (k : K) (v : V) (h : Inv s) (hk : alFind s.readM k = none)
    (hdi : s.dirty = some d) :
    Inv (⟨s.heap ++ [mkEntry v], s.readM, s.amended,
      some (alInsert d k s.heap.length), s.misses⟩ : MapState K V) := by
  have hmkv : heapGet (s.heap ++ [mkEntry v]) s.heap.length = mkEntry v :=
    heapGet_append_len s.heap _
  have hlow : ∀ e2, e2 < s.heap.length →
      heapGet (s.heap ++ [mkEntry v]) e2 = heapGet s.heap e2 :=
    fun e2 he2 => heapGet_append_left _ _ _ he2
  have htab : ∀ j e2, alFind (alInsert d k s.heap.length) j = some e2 →
      (j = k ∧ e2 = s.heap.length) ∨ alFind d j = some e2 := by
    intro j e2 hf
    rw [alFind_insert] at hf
    by_cases hjk : k = j
    · rw [if_pos hjk] at hf
      injection hf with hf
      exact Or.inl ⟨hjk.symm, hf.symm⟩
    · rw [if_neg hjk] at hf
      exact Or.inr hf
  refine ⟨?_, ?_, ?_, h.nodupRead, ?_, ?_, ?_, ?_⟩
  · have hx := h.amendedDirty
    rw [hdi] at hx
    simpa using hx
  · intro j e2 hin
    rcases hin with hin | ⟨d', hd', hf⟩
    · have hb := h.ids j e2 (Or.inl hin)
      simp only [List.length_append]
      omega
    · injection hd' with hd'
      subst hd'
      rcases htab j e2 hf with ⟨_, he2⟩ | hf2
      · subst he2
        simp [List.length_append]
      · have hb := h.ids j e2 (Or.inr ⟨d, hdi, hf2⟩)
        simp only [List.length_append]
        omega
  · intro j j2 e2 hj hj2
    have htr : ∀ j3, inTables (⟨s.heap ++ [mkEntry v], s.readM, s.amended,
        some (alInsert d k s.heap.length), s.misses⟩ : MapState K V) j3 e2 →
        inTables s j3 e2 ∨ (j3 = k ∧ e2 = s.heap.length) := by
      intro j3 hin
      rcases hin with hin | ⟨d', hd', hf⟩
      · exact Or.inl (Or.inl hin)
      · injection hd' with hd'
        subst hd'
        rcases htab j3 e2 hf with hx | hx
        · exact Or.inr hx
        · exact Or.inl (Or.inr ⟨d, hdi, hx⟩)
    rcases htr j hj with hx | ⟨hx, he2⟩
    · rcases htr j2 hj2 with hy | ⟨hy, he2⟩
      · exact h.unique j j2 e2 hx hy
      · subst he2
        have hb := h.ids j _ hx
        omega
    · rcases htr j2 hj2 with hy | ⟨hy, hy2⟩
      · subst he2
        have hb := h.ids j2 _ hy
        omega
      · rw [hx, hy]
  · intro d' hd'
    injection hd' with hd'
    subst hd'
    exact alInsert_keys_nodup d k s.heap.length (h.nodupDirty d hdi)
  · intro d' j e2 hd' hf
    injection hd' with hd'
    subst hd'
    rcases htab j e2 hf with ⟨_, he2⟩ | hf2
    · subst he2
      show (heapGet (s.heap ++ [mkEntry v]) s.heap.length).state ≠ .kExpunged
      rw [hmkv]
      intro hh
      cases hh
    · have he2 : e2 < s.heap.length := h.ids j e2 (Or.inr ⟨d, hdi, hf2⟩)
      show (heapGet (s.heap ++ [mkEntry v]) e2).state ≠ .kExpunged
      rw [hlow e2 he2]
      exact h.dirtyNotExpunged d j e2 hdi hf2
  · intro d' j e2 hd' hfRM hstNew
    injection hd' with hd'
    subst hd'
    have hjk : k ≠ j := by
      intro hh
      rw [← hh, hk] at hfRM
      cases hfRM
    rw [alFind_insert, if_neg hjk]
    have he2 : e2 < s.heap.length := h.ids j e2 (Or.inl hfRM)
    apply h.readInDirty d j e2 hdi hfRM
    intro hst
    apply hstNew
    show (heapGet (s.heap ++ [mkEntry v]) e2).state = .kExpunged
    rw [hlow e2 he2]
    exact hst
  · intro e2 he2
    show (heapGet (s.heap ++ [mkEntry v]) e2).state = .kValue →
      (heapGet (s.heap ++ [mkEntry v]) e2).ptr.isSome
    by_cases hee : e2 = s.heap.length
    · subst hee
      rw [hmkv]
      intro _
      simp [mkEntry]
    · have hb : e2 < s.heap.length := by
        simp only [List.length_append, List.length_singleton] at he2
        omega
      rw [hlow e2 hb]
      exact h.wf e2 hb

/-- Resurrecting an expunged snapshot entry: unexpunge it, re-insert it into
the overlay, and store a value into it. -/
theorem inv_resurrect {K V : Type} [DecidableEq K] (s : MapState K V) (d : Table K)
    (k : K) (e : Nat) (v : V) (h : Inv s) (hk : alFind s.readM k = some e)
    (hdi : s.dirty = some d) :
    Inv (⟨(s.heap.set e ⟨none, .kNull⟩).set e (storeLocked v), s.readM, s.amended,
      some (alInsert d k e), s.misses⟩ : MapState K V) := by
  have he : e < s.heap.length := h.ids k e (Or.inl hk)
  have hget : ∀ j, heapGet ((s.heap.set e (⟨none, .kNull⟩ : EntryData V)).set e
      (storeLocked v)) j = if e = j then storeLocked v else heapGet s.heap j := by
    intro j
    by_cases hej : e = j
    · subst hej
      rw [if_pos rfl]
      exact heapGet_set_self _ _ _ (by rw [List.length_set]; exact he)
    · rw [if_neg hej, heapGet_set_ne _ _ _ _ hej, heapGet_set_ne _ _ _ _ hej]
  have htab : ∀ j e2, alFind (alInsert d k e) j = some e2 →
      (j = k ∧ e2 = e) ∨ alFind d j = some e2 := by
    intro j e2 hf
    rw [alFind_insert] at hf
    by_cases hjk : k = j
    · rw [if_pos hjk] at hf
      injection hf with hf
      exact Or.inl ⟨hjk.symm, hf.symm⟩
    · rw [if_neg hjk] at hf
      exact Or.inr hf
  have hlen : ((s.heap.set e (⟨none, .kNull⟩ : EntryData V)).set e
      (storeLocked v)).length = s.heap.length := by
    rw [List.length_set, List.length_set]
  refine ⟨?_, ?_, ?_, h.nodupRead, ?_, ?_, ?_, ?_⟩
  · have hx := h.amendedDirty
    rw [hdi] at hx
    simpa using hx
  · intro j e2 hin
    rw [show (⟨(s.heap.set e (⟨none, .kNull⟩ : EntryData V)).set e (storeLocked v),
      s.readM, s.amended, some (alInsert d k e), s.misses⟩ : MapState K V).heap.length
      = s.heap.length from hlen]
    rcases hin with hin | ⟨d', hd', hf⟩
    · exact h.ids j e2 (Or.inl hin)
    · injection hd' with hd'
      subst hd'
      rcases htab j e2 hf with ⟨_, he2⟩ | hf2
      · subst he2
        exact he
      · exact h.ids j e2 (Or.inr ⟨d, hdi, hf2⟩)
  · intro j j2 e2 hj hj2
    have htr : ∀ j3, inTables (⟨(s.heap.set e (⟨none, .kNull⟩ : EntryData V)).set e
        (storeLocked v), s.readM, s.amended, some (alInsert d k e), s.misses⟩
        : MapState K V) j3 e2 → inTables s j3 e2 := by
      intro j3 hin
      rcases hin with hin | ⟨d', hd', hf⟩
      · exact Or.inl hin
      · injection hd' with hd'
        subst hd'
        rcases htab j3 e2 hf with ⟨hj3, he2⟩ | hf2
        · subst hj3
          subst he2
          exact Or.inl hk
        · exact Or.inr ⟨d, hdi, hf2⟩
    exact h.unique j j2 e2 (htr j hj) (htr j2 hj2)
  · intro d' hd'
    injection hd' with hd'
    subst hd'
    exact alInsert_keys_nodup d k e (h.nodupDirty d hdi)
  · intro d' j e2 hd' hf
    injection hd' with hd'
    subst hd'
    show (heapGet ((s.heap.set e (⟨none, .kNull⟩ : EntryData V)).set e
      (storeLocked v)) e2).state ≠ .kExpunged
    rw [hget e2]
    by_cases hee : e = e2
    · rw [if_pos hee]
      intro hh
      cases hh
    · rw [if_neg hee]
      rcases htab j e2 hf with ⟨_, he2⟩ | hf2
      · exact absurd he2.symm hee
      · exact h.dirtyNotExpunged d j e2 hdi hf2
  · intro d' j e2 hd' hfRM hstNew
    injection hd' with hd'
    subst hd'
    by_cases hee : e = e2
    · subst hee
      have hje : j = k := h.unique j k e (Or.inl hfRM) (Or.inl hk)
      subst hje
      rw [alFind_insert, if_pos rfl]
    · have hjk : k ≠ j := by
        intro hh
        subst hh
        rw [hk] at hfRM
        injection hfRM with hfRM
        exact hee hfRM
      rw [alFind_insert, if_neg hjk]
      apply h.readInDirty d j e2 hdi hfRM
      intro hst
      apply hstNew
      show (heapGet ((s.heap.set e (⟨none, .kNull⟩ : EntryData V)).set e
        (storeLocked v)) e2).state = .kExpunged
      rw [hget e2, if_neg hee]
      exact hst
  · intro e2 he2
    show (heapGet ((s.heap.set e (⟨none, .kNull⟩ : EntryData V)).set e
        (storeLocked v)) e2).state = .kValue →
      (heapGet ((s.heap.set e (⟨none, .kNull⟩ : EntryData V)).set e
        (storeLocked v)) e2).ptr.isSome
    rw [hget e2]
    by_cases hee : e = e2
    · rw [if_pos hee]
      intro _
      simp [storeLocked]
    · rw [if_neg hee]
      exact h.wf e2 (by rw [hlen] at he2; exact he2)

theorem tryStore_not_expunged {V : Type} (d : EntryData V) (v : V)
    (h : d.state ≠ .kExpunged) : tryStore d v = (⟨some v, .kValue⟩, true) := by
  unfold tryStore
  cases hst : d.state
  · rfl
  · rfl
  · exact absurd hst h

theorem unexpunge_not_expunged {V : Type} (d : EntryData V)
    (h : d.state ≠ .kExpunged) : unexpungeLocked d = (d, false) := by
  unfold unexpungeLocked
  cases hst : d.state
  · rfl
  · rfl
  · exact absurd hst h

theorem tls_null {V : Type} (d : EntryData V) (v : V) (h : d.state = .kNull) :
    tryLoadOrStore d v = (⟨some v, .kValue⟩, ⟨some v, false, true⟩) := by
  unfold tryLoadOrStore
  rw [h]

theorem tls_value {V : Type} (d : EntryData V) (v : V) (h : d.state = .kValue) :
    tryLoadOrStore d v = (d, ⟨d.ptr, true, true⟩) := by
  unfold tryLoadOrStore
  rw [h]

theorem tls_expunged {V : Type} (d : EntryData V) (v : V) (h : d.state = .kExpunged) :
    tryLoadOrStore d v = (d, ⟨none, false, false⟩) := by
  unfold tryLoadOrStore
  rw [h]

theorem entryDelete_not_value {V : Type} (d : EntryData V)
    (h : d.state ≠ .kValue) : entryDelete d = (d, none, false) := by
  unfold entryDelete
  cases hst : d.state
  · rfl
  · exact absurd hst h
  · rfl

theorem inv_storeNew {K V : Type} [DecidableEq K] (k : K) (v : V) (s : MapState K V)
    (h : Inv s) (hk : alFind s.readM k = none) : Inv (storeNew k v s) := by
  unfold storeNew
  by_cases ha : s.amended = true
  · rw [if_pos ha]
    dsimp only
    cases hdi : s.dirty with
    | some d => exact inv_new_amended s d k v h hk hdi
    | none => exact h
  · rw [if_neg ha]
    unfold dirtyLocked
    cases hdi : s.dirty with
    | some d =>
      exact absurd (h.amendedDirty.mpr (by rw [hdi]; rfl)) ha
    | none =>
      exact inv_new_build s k v h hk

theorem inv_storeSlow {K V : Type} [DecidableEq K] (k : K) (v : V) (s : MapState K V)
    (h : Inv s) : Inv (storeSlow k v s) := by
  unfold storeSlow
  cases hf : alFind s.readM k with
  | some e =>
    dsimp only
    have he : e < s.heap.length := h.ids k e (Or.inl hf)
    by_cases hst : (getEntry s e).state = .kExpunged
    · rw [unexpunge_expunged _ hst]
      dsimp only
      cases hdi : s.dirty with
      | some d =>
        simp only [setEntry_dirty, hdi]
        exact inv_resurrect s d k e v h hf hdi
      | none =>
        simp only [setEntry_dirty, hdi]
        have h1 : Inv (setEntry s e (⟨none, .kNull⟩ : EntryData V)) :=
          inv_setEntry_nodirty s e _ h hdi (by intro hh; cases hh)
        exact inv_setEntry_nodirty _ e _ h1 hdi (by intro _; simp [storeLocked])
    · rw [unexpunge_not_expunged _ hst]
      simp only [Bool.false_eq_true, if_false, ite_false, setEntry_self]
      exact inv_setEntry s e _ h hst (by intro hh; cases hh) (by intro _; simp [storeLocked])
  | none =>
    dsimp only
    cases hdi : s.dirty with
    | some d =>
      dsimp only
      cases hfd : alFind d k with
      | some e =>
        exact inv_setEntry s e _ h (h.dirtyNotExpunged d k e hdi hfd)
          (by intro hh; cases hh) (by intro _; simp [storeLocked])
      | none => exact inv_storeNew k v s h hf
    | none => exact inv_storeNew k v s h hf

theorem inv_storeOp {K V : Type} [DecidableEq K] (k : K) (v : V) (s : MapState K V)
    (h : Inv s) : Inv (storeOp k v s) := by
  unfold storeOp
  cases hf : alFind s.readM k with
  | none => exact inv_storeSlow k v s h
  | some e =>
    dsimp only
    by_cases hst : (getEntry s e).state = .kExpunged
    · rw [tryStore_expunged _ _ hst]
      exact inv_storeSlow k v s h
    · rw [tryStore_not_expunged _ _ hst]
      exact inv_setEntry s e _ h hst (by intro hh; cases hh) (by intro _; simp)

theorem loadOp_state_cases {K V : Type} [DecidableEq K] (k : K) (s : MapState K V) :
    (loadOp k s).2 = s ∨ (loadOp k s).2 = missLocked s := by
  rw [loadOp_state]
  unfold loadFind
  cases h1 : alFind s.readM k with
  | some e => exact Or.inl rfl
  | none =>
    by_cases ha : s.amended = true
    · rw [if_pos ha, if_pos ha]
      exact Or.inr rfl
    · rw [if_neg ha]
      exact Or.inl rfl

theorem inv_loadOp {K V : Type} [DecidableEq K] (k : K) (s : MapState K V)
    (h : Inv s) : Inv (loadOp k s).2 := by
  rcases loadOp_state_cases k s with h1 | h1 <;> rw [h1]
  · exact h
  · exact inv_missLocked s h

theorem getEntry_missLocked {K V : Type} [DecidableEq K] (s : MapState K V) (e : Nat) :
    getEntry (missLocked s) e = getEntry s e := by
  unfold getEntry
  rw [missLocked_heap]

theorem inv_deleteOp {K V : Type} [DecidableEq K] (k : K) (s : MapState K V)
    (h : Inv s) : Inv (deleteOp k s).2 := by
  unfold deleteOp deleteFind
  cases hf : alFind s.readM k with
  | some e =>
    dsimp only
    by_cases hst : (getEntry s e).state = .kValue
    · rw [entryDelete_value _ hst]
      exact inv_setEntry s e _ h (by rw [hst]; intro hh; cases hh)
        (by intro hh; cases hh) (by intro hh; cases hh)
    · simp only [entryDelete_not_value _ hst, setEntry_self]
      exact h
  | none =>
    by_cases ha : s.amended = true
    · rw [if_pos ha, if_pos ha]
      cases hdi : s.dirty with
      | some d =>
        simp only [Option.getD_some, Option.map_some']
        cases hfd : alFind d k with
        | some e =>
          dsimp only
          have h2 : Inv (missLocked { s with dirty := some (alErase d k) }) :=
            inv_missLocked _ (inv_erase_dirty s d k h hdi hf)
          have hne : (getEntry (missLocked { s with dirty := some (alErase d k) }) e).state
              ≠ .kExpunged := by
            rw [getEntry_missLocked]
            exact h.dirtyNotExpunged d k e hdi hfd
          by_cases hst : (getEntry (missLocked
              { s with dirty := some (alErase d k) }) e).state = .kValue
          · rw [entryDelete_value _ hst]
            exact inv_setEntry _ e _ h2 hne (by intro hh; cases hh) (by intro hh; cases hh)
          · simp only [entryDelete_not_value _ hst, setEntry_self]
            exact h2
        | none => exact inv_missLocked s h
      | none =>
        simp only [Option.getD_none]
        exact inv_missLocked s h
    · rw [if_neg ha]
      exact h

theorem inv_losNew {K V : Type} [DecidableEq K] (k : K) (v : V) (s : MapState K V)
    (h : Inv s) (hk : alFind s.readM k = none) : Inv (losNew k v s).2 := by
  unfold losNew
  by_cases ha : s.amended = true
  · rw [if_pos ha]
    dsimp only
    cases hdi : s.dirty with
    | some d => exact inv_new_amended s d k v h hk hdi
    | none => exact h
  · rw [if_neg ha]
    unfold dirtyLocked
    cases hdi : s.dirty with
    | some d =>
      exact absurd (h.amendedDirty.mpr (by rw [hdi]; rfl)) ha
    | none =>
      exact inv_new_build s k v h hk

theorem inv_losSlow {K V : Type} [DecidableEq K] (k : K) (v : V) (s : MapState K V)
    (h : Inv s) : Inv (losSlow k v s).2 := by
  unfold losSlow
  cases hf : alFind s.readM k with
  | some e =>
    dsimp only
    have he : e < s.heap.length := h.ids k e (Or.inl hf)
    by_cases hst : (getEntry s e).state = .kExpunged
    · rw [unexpunge_expunged _ hst]
      dsimp only
      cases hdi : s.dirty with
      | some d =>
        simp only [setEntry_dirty, hdi]
        rw [tls_null]
        · exact inv_resurrect s d k e v h hf hdi
        · show (heapGet (s.heap.set e ⟨none, .kNull⟩) e).state = .kNull
          rw [heapGet_set_self _ _ _ he]
      | none =>
        simp only [setEntry_dirty, hdi]
        rw [tls_null]
        · have h1 : Inv (setEntry s e (⟨none, .kNull⟩ : EntryData V)) :=
            inv_setEntry_nodirty s e _ h hdi (by intro hh; cases hh)
          exact inv_setEntry_nodirty _ e _ h1 hdi (by intro _; simp)
        · show (heapGet (s.heap.set e ⟨none, .kNull⟩) e).state = .kNull
          rw [heapGet_set_self _ _ _ he]
    · rw [unexpunge_not_expunged _ hst]
      simp only [Bool.false_eq_true, if_false, ite_false, setEntry_self]
      by_cases hsv : (getEntry s e).state = .kValue
      · rw [tls_value _ _ hsv, setEntry_self]
        exact h
      · have hsn : (getEntry s e).state = .kNull := by
          cases hs2 : (getEntry s e).state
          · rfl
          · exact absurd hs2 hsv
          · exact absurd hs2 hst
        rw [tls_null _ _ hsn]
        exact inv_setEntry s e _ h hst (by intro hh; cases hh) (by intro _; simp)
  | none =>
    dsimp only
    cases hdi : s.dirty with
    | some d =>
      dsimp only
      cases hfd : alFind d k with
      | some e =>
        dsimp only
        have hne := h.dirtyNotExpunged d k e hdi hfd
        by_cases hsv : (getEntry s e).state = .kValue
        · rw [tls_value _ _ hsv, setEntry_self]
          exact inv_missLocked s h
        · have hsn : (getEntry s e).state = .kNull := by
            cases hs2 : (getEntry s e).state
            · rfl
            · exact absurd hs2 hsv
            · exact absurd hs2 hne
          rw [tls_null _ _ hsn]
          exact inv_missLocked _ (inv_setEntry s e _ h hne
            (by intro hh; cases hh) (by intro _; simp))
      | none => exact inv_losNew k v s h hf
    | none => exact inv_losNew k v s h hf

theorem inv_losOp {K V : Type} [DecidableEq K] (k : K) (v : V) (s : MapState K V)
    (h : Inv s) : Inv (loadOrStoreOp k v s).2 := by
  unfold loadOrStoreOp
  cases hf : alFind s.readM k with
  | none => exact inv_losSlow k v s h
  | some e =>
    dsimp only
    by_cases hst : (getEntry s e).state = .kExpunged
    · rw [tls_expunged _ _ hst]
      exact inv_losSlow k v s h
    · by_cases hsv : (getEntry s e).state = .kValue
      · rw [tls_value _ _ hsv]
        simp only [ite_true, if_true, setEntry_self]
        exact h
      · have hsn : (getEntry s e).state = .kNull := by
          cases hs2 : (getEntry s e).state
          · rfl
          · exact absurd hs2 hsv
          · exact absurd hs2 hst
        rw [tls_null _ _ hsn]
        exact inv_setEntry s e _ h hst (by intro hh; cases hh) (by intro _; simp)

theorem inv_rangeOp {K V : Type} [DecidableEq K] (f : Option (K → V → Bool))
    (s : MapState K V) (h : Inv s) : Inv (rangeOp f s).1 := by
  unfold rangeOp
  cases f with
  | none => exact h
  | some g =>
    by_cases ha : s.amended = true
    · rw [if_pos ha, if_pos ha]
      cases hdi : s.dirty with
      | some d =>
        simp only [Option.getD_some]
        exact inv_promote s d h hdi
      | none =>
        exact absurd (h.amendedDirty.mp ha) (by rw [hdi]; simp)
    · rw [if_neg ha]
      exact h

theorem inv_resetOp {K V : Type} [DecidableEq K] (s : MapState K V) (h : Inv s) :
    Inv (resetOp s).2 :=
  inv_drained s h

theorem inv_reachable {K V : Type} [DecidableEq K] {s : MapState K V}
    (hr : Reachable s) : Inv s := by
  induction hr with
  | init => exact inv_empty
  | store k v _ ih => exact inv_storeOp k v _ ih
  | load k _ ih => exact inv_loadOp k _ ih
  | loadOrStore k v _ ih => exact inv_losOp k v _ ih
  | del k _ ih => exact inv_deleteOp k _ ih
  | range f _ ih => exact inv_rangeOp f _ ih
  | reset _ ih => exact inv_resetOp _ ih

/-- C3: in every reachable state that has an overlay, a key bound in the
published snapshot's table satisfies the overlay invariant: if its entry is
not expunged, the overlay binds the key to the same entry id, and if the
entry is expunged, the overlay does not bind the key to it. -/
theorem c3_overlay_invariant {K V : Type} [DecidableEq K] (s : MapState K V)
    (hr : Reachable s) (d : Table K) (k : K) (e : Nat)
    (hd : s.dirty = some d) (hk : alFind s.readM k = some e) :
    ((getEntry s e).state ≠ .kExpunged → alFind d k = some e) ∧
    ((getEntry s e).state = .kExpunged → ¬ alFind d k = some e) := by
  have h := inv_reachable hr
  constructor
  · exact h.readInDirty d k e hd hk
  · intro hst hf
    exact h.dirtyNotExpunged d k e hd hf hst

theorem c3_overlay_invariant_witness : alFind [("a", 0), ("b", 1)] "a" = some 0 :=
  (c3_overlay_invariant (storeOp "b" 2 sA)
    (Reachable.store "b" 2 (Reachable.load "b" (Reachable.store "a" 1 Reachable.init)))
    [("a", 0), ("b", 1)] "a" 0 (by decide) (by decide)).1 (by decide)

/-! ### Computation lemmas for `Load` and `LoadOrStore` paths -/

theorem loadOp_slow {K V : Type} [DecidableEq K] (k : K) (s : MapState K V) (e : Nat)
    (hk : alFind s.readM k = none) (ha : s.amended = true)
    (hfd : alFind (s.dirty.getD []) k = some e) :
    loadOp k s = (entryLoad (getEntry (missLocked s) e), missLocked s) := by
  unfold loadOp loadFind
  rw [hk, ha, hfd]
  simp

theorem loadOp_slow_miss {K V : Type} [DecidableEq K] (k : K) (s : MapState K V)
    (hk : alFind s.readM k = none) (ha : s.amended = true)
    (hfd : alFind (s.dirty.getD []) k = none) :
    loadOp k s = ((none, false), missLocked s) := by
  unfold loadOp loadFind
  rw [hk, ha, hfd]
  simp

theorem loadOp_absent {K V : Type} [DecidableEq K] (k : K) (s : MapState K V)
    (hk : alFind s.readM k = none) (ha : s.amended = false) :
    loadOp k s = ((none, false), s) := by
  unfold loadOp loadFind
  rw [hk, ha]
  simp

theorem missLocked_cases {K V : Type} [DecidableEq K] (s : MapState K V) (d : Table K)
    (hd : s.dirty = some d) :
    missLocked s = { s with misses := s.misses + 1 } ∨
    missLocked s = { s with readM := d, amended := false, dirty := none, misses := 0 } := by
  unfold missLocked
  rw [hd]
  dsimp only
  by_cases hm : s.misses + 1 < d.length
  · rw [if_pos hm]
    exact Or.inl rfl
  · rw [if_neg hm]
    exact Or.inr rfl

theorem losOp_fast_value {K V : Type} [DecidableEq K] (k : K) (v : V) (s : MapState K V)
    (e : Nat) (hk : alFind s.readM k = some e)
    (hsv : (getEntry s e).state = .kValue) :
    loadOrStoreOp k v s = (((getEntry s e).ptr, true), s) := by
  unfold loadOrStoreOp
  rw [hk]
  dsimp only
  rw [tls_value _ _ hsv]
  simp [setEntry_self]

theorem losOp_fast_null {K V : Type} [DecidableEq K] (k : K) (v : V) (s : MapState K V)
    (e : Nat) (hk : alFind s.readM k = some e)
    (hsn : (getEntry s e).state = .kNull) :
    loadOrStoreOp k v s = ((some v, false), setEntry s e ⟨some v, .kValue⟩) := by
  unfold loadOrStoreOp
  rw [hk]
  dsimp only
  rw [tls_null _ _ hsn]
  simp

theorem losOp_resurrect {K V : Type} [DecidableEq K] (k : K) (v : V) (s : MapState K V)
    (e : Nat) (d : Table K) (hk : alFind s.readM k = some e)
    (hst : (getEntry s e).state = .kExpunged) (hdi : s.dirty = some d)
    (he : e < s.heap.length) :
    loadOrStoreOp k v s = ((some v, false),
      ⟨(s.heap.set e ⟨none, .kNull⟩).set e ⟨some v, .kValue⟩, s.readM, s.amended,
        some (alInsert d k e), s.misses⟩) := by
  unfold loadOrStoreOp
  rw [hk]
  dsimp only
  rw [tls_expunged _ _ hst]
  dsimp only
  unfold losSlow
  rw [hk]
  dsimp only
  rw [unexpunge_expunged _ hst]
  dsimp only
  simp only [setEntry_dirty, hdi]
  rw [tls_null]
  · rfl
  · show (heapGet (s.heap.set e ⟨none, .kNull⟩) e).state = .kNull
    rw [heapGet_set_self _ _ _ he]

theorem losOp_resurrect_nodirty {K V : Type} [DecidableEq K] (k : K) (v : V)
    (s : MapState K V) (e : Nat) (hk : alFind s.readM k = some e)
    (hst : (getEntry s e).state = .kExpunged) (hdi : s.dirty = none)
    (he : e < s.heap.length) :
    loadOrStoreOp k v s = ((some v, false),
      setEntry (setEntry s e ⟨none, .kNull⟩) e ⟨some v, .kValue⟩) := by
  unfold loadOrStoreOp
  rw [hk]
  dsimp only
  rw [tls_expunged _ _ hst]
  dsimp only
  unfold losSlow
  rw [hk]
  dsimp only
  rw [unexpunge_expunged _ hst]
  dsimp only
  simp only [setEntry_dirty, hdi]
  rw [tls_null]
  · rfl
  · show (heapGet (s.heap.set e ⟨none, .kNull⟩) e).state = .kNull
    rw [heapGet_set_self _ _ _ he]

theorem losOp_dirty_value {K V : Type} [DecidableEq K] (k : K) (v : V) (s : MapState K V)
    (e : Nat) (d : Table K) (hk : alFind s.readM k = none) (hdi : s.dirty = some d)
    (hfd : alFind d k = some e) (hsv : (getEntry s e).state = .kValue) :
    loadOrStoreOp k v s = (((getEntry s e).ptr, true), missLocked s) := by
  unfold loadOrStoreOp
  rw [hk]
  unfold losSlow
  rw [hk, hdi]
  dsimp only
  rw [hfd]
  dsimp only
  rw [tls_value _ _ hsv]
  simp [setEntry_self]

theorem losOp_dirty_null {K V : Type} [DecidableEq K] (k : K) (v : V) (s : MapState K V)
    (e : Nat) (d : Table K) (hk : alFind s.readM k = none) (hdi : s.dirty = some d)
    (hfd : alFind d k = some e) (hsn : (getEntry s e).state = .kNull) :
    loadOrStoreOp k v s = ((some v, false),
      missLocked (setEntry s e ⟨some v, .kValue⟩)) := by
  unfold loadOrStoreOp
  rw [hk]
  unfold losSlow
  rw [hk, hdi]
  dsimp only
  rw [hfd]
  dsimp only
  rw [tls_null _ _ hsn]

theorem losOp_new_build {K V : Type} [DecidableEq K] (k : K) (v : V) (s : MapState K V)
    (hk : alFind s.readM k = none) (hdi : s.dirty = none) (ha : s.amended = false) :
    loadOrStoreOp k v s = ((some v, false),
      ⟨(dirtyScan s.heap [] s.readM).1 ++ [mkEntry v], s.readM, true,
        some (alInsert (dirtyScan s.heap [] s.readM).2 k
          ((dirtyScan s.heap [] s.readM).1).length), s.misses⟩) := by
  unfold loadOrStoreOp
  rw [hk]
  unfold losSlow
  rw [hk, hdi]
  unfold losNew dirtyLocked
  rw [ha, hdi]
  simp

theorem losOp_new_amended {K V : Type} [DecidableEq K] (k : K) (v : V) (s : MapState K V)
    (d : Table K) (hk : alFind s.readM k = none) (hdi : s.dirty = some d)
    (hfd : alFind d k = none) (ha : s.amended = true) :
    loadOrStoreOp k v s = ((some v, false),
      ⟨s.heap ++ [mkEntry v], s.readM, s.amended,
        some (alInsert d k s.heap.length), s.misses⟩) := by
  unfold loadOrStoreOp
  rw [hk]
  unfold losSlow
  rw [hk, hdi]
  dsimp only
  rw [hfd]
  unfold losNew
  rw [if_pos ha]
  dsimp only
  rw [hdi]

theorem getEntry_setEntry_self {K V : Type} (s : MapState K V) (e : Nat)
    (d' : EntryData V) (he : e < s.heap.length) : getEntry (setEntry s e d') e = d' := by
  unfold getEntry setEntry
  exact heapGet_set_self _ _ _ he

theorem entryLoad_null {V : Type} (d : EntryData V) (h : d.state = .kNull) :
    entryLoad d = (none, false) := by
  unfold entryLoad
  rw [h]

theorem entryLoad_expunged {V : Type} (d : EntryData V) (h : d.state = .kExpunged) :
    entryLoad d = (none, false) := by
  unfold entryLoad
  rw [h]

theorem loadOp_after_new {K V : Type} [DecidableEq K] (k : K) (v : V)
    (H : List (EntryData V)) (r D : Table K) (m : Nat) (hk : alFind r k = none) :
    (loadOp k (⟨H ++ [mkEntry v], r, true, some (alInsert D k H.length), m⟩ :
      MapState K V)).1 = (some v, true) := by
  rw [loadOp_slow k (⟨H ++ [mkEntry v], r, true, some (alInsert D k H.length), m⟩ :
    MapState K V) H.length hk rfl
    (by show alFind (alInsert D k H.length) k = some H.length
        rw [alFind_insert, if_pos rfl])]
  dsimp only
  rw [getEntry_missLocked]
  simp only [getEntry_mk]
  rw [heapGet_append_len]
  rfl

theorem loadOp_miss_found {K V : Type} [DecidableEq K] (k : K) (s : MapState K V)
    (e : Nat) (d : Table K) (hk : alFind s.readM k = none) (ha : s.amended = true)
    (hdi : s.dirty = some d) (hfd : alFind d k = some e)
    (hsv : (getEntry s e).state = .kValue) (w : Option V)
    (hptr : (getEntry s e).ptr = w) :
    (loadOp k (missLocked s)).1 = (w, true) := by
  rcases missLocked_cases s d hdi with hml | hml <;> rw [hml]
  · rw [loadOp_slow k { s with misses := s.misses + 1 } e hk ha
      (by show alFind (s.dirty.getD []) k = some e
          rw [hdi]
          exact hfd)]
    dsimp only
    rw [getEntry_missLocked]
    simp only [getEntry_mk]
    rw [entryLoad_value (heapGet s.heap e) hsv]
    rw [show (heapGet s.heap e).ptr = w from hptr]
  · rw [loadOp_fast k { s with readM := d, amended := false, dirty := none, misses := 0 } e hfd]
    dsimp only
    simp only [getEntry_mk]
    rw [entryLoad_value (heapGet s.heap e) hsv]
    rw [show (heapGet s.heap e).ptr = w from hptr]

/-- C6: in every reachable state, `LoadOrStore(k, v)` behaves as an atomic
load-or-store: if `k` was absent it returns `(v, loaded := false)` and a
subsequent load returns `(v, true)`; if `k` was present with value `v0` it
returns `(v0, loaded := true)`, stores nothing, and a subsequent load still
returns `(v0, true)`. -/
theorem c6_load_or_store {K V : Type} [DecidableEq K] (s : MapState K V) (hr : Reachable s)
    (k : K) (v v0 : V) :
    ((loadOp k s).1 = (none, false) →
      (loadOrStoreOp k v s).1 = (some v, false) ∧
      (loadOp k (loadOrStoreOp k v s).2).1 = (some v, true)) ∧
    ((loadOp k s).1 = (some v0, true) →
      (loadOrStoreOp k v s).1 = (some v0, true) ∧
      (loadOp k (loadOrStoreOp k v s).2).1 = (some v0, true)) := by
  have h := inv_reachable hr
  cases hf : alFind s.readM k with
  | some e =>
    have he : e < s.heap.length := h.ids k e (Or.inl hf)
    rw [loadOp_fast k s e hf]
    cases hst : (getEntry s e).state with
    | kValue =>
      rw [entryLoad_value _ hst, losOp_fast_value k v s e hf hst]
      dsimp only
      rw [loadOp_fast k s e hf, entryLoad_value _ hst]
      constructor
      · intro habs
        exact absurd habs (by simp)
      · intro hpres
        exact ⟨hpres, hpres⟩
    | kNull =>
      rw [entryLoad_null _ hst, losOp_fast_null k v s e hf hst]
      dsimp only
      constructor
      · intro _
        refine ⟨rfl, ?_⟩
        rw [loadOp_fast k (setEntry s e ⟨some v, .kValue⟩) e hf]
        rw [getEntry_setEntry_self s e _ he]
        rfl
      · intro hpres
        exact absurd hpres (by simp)
    | kExpunged =>
      rw [entryLoad_expunged _ hst]
      cases hdi : s.dirty with
      | some d =>
        rw [losOp_resurrect k v s e d hf hst hdi he]
        dsimp only
        constructor
        · intro _
          refine ⟨rfl, ?_⟩
          rw [loadOp_fast_mk k _ _ _ _ _ e hf]
          dsimp only
          rw [heapGet_set_self (s.heap.set e ⟨none, .kNull⟩) e ⟨some v, .kValue⟩
            (by rw [List.length_set]; exact he)]
          rfl
        · intro hpres
          exact absurd hpres (by simp)
      | none =>
        rw [losOp_resurrect_nodirty k v s e hf hst hdi he]
        dsimp only
        constructor
        · intro _
          refine ⟨rfl, ?_⟩
          rw [loadOp_fast k (setEntry (setEntry s e ⟨none, .kNull⟩) e ⟨some v, .kValue⟩) e hf]
          rw [getEntry_setEntry_self (setEntry s e ⟨none, .kNull⟩) e ⟨some v, .kValue⟩
            (by rw [setEntry_heap, List.length_set]; exact he)]
          rfl
        · intro hpres
          exact absurd hpres (by simp)
  | none =>
    by_cases ha : s.amended = true
    case neg =>
      have ha2 : s.amended = false := by
        cases hab : s.amended
        · rfl
        · exact absurd hab ha
      have hdi : s.dirty = none := by
        cases hdo : s.dirty
        · rfl
        · exact absurd (h.amendedDirty.mpr (by rw [hdo]; rfl)) ha
      rw [loadOp_absent k s hf ha2, losOp_new_build k v s hf hdi ha2]
      dsimp only
      constructor
      · intro _
        exact ⟨rfl,
          loadOp_after_new k v (dirtyScan s.heap [] s.readM).1 s.readM
            (dirtyScan s.heap [] s.readM).2 s.misses hf⟩
      · intro hpres
        exact absurd hpres (by simp)
    case pos =>
      obtain ⟨d, hdi⟩ : ∃ d, s.dirty = some d := by
        cases hdo : s.dirty
        · exact absurd (h.amendedDirty.mp ha) (by rw [hdo]; simp)
        · exact ⟨_, rfl⟩
      cases hfd : alFind d k with
      | some e =>
        have hne := h.dirtyNotExpunged d k e hdi hfd
        have he : e < s.heap.length := h.ids k e (Or.inr ⟨d, hdi, hfd⟩)
        rw [loadOp_slow k s e hf ha (by rw [hdi]; exact hfd)]
        rw [getEntry_missLocked]
        cases hsv : (getEntry s e).state with
        | kExpunged => exact absurd hsv hne
        | kValue =>
          rw [entryLoad_value _ hsv, losOp_dirty_value k v s e d hf hdi hfd hsv]
          dsimp only
          constructor
          · intro habs
            exact absurd habs (by simp)
          · intro hpres
            refine ⟨hpres, ?_⟩
            have hptr : (getEntry s e).ptr = some v0 := by
              rw [Prod.mk.injEq] at hpres
              exact hpres.1
            exact loadOp_miss_found k s e d hf ha hdi hfd hsv (some v0) hptr
        | kNull =>
          rw [entryLoad_null _ hsv, losOp_dirty_null k v s e d hf hdi hfd hsv]
          dsimp only
          constructor
          · intro _
            refine ⟨rfl, ?_⟩
            exact loadOp_miss_found k (setEntry s e ⟨some v, .kValue⟩) e d hf ha
              (by rw [setEntry_dirty]; exact hdi) hfd
              (by rw [getEntry_setEntry_self s e _ he])
              (some v)
              (by rw [getEntry_setEntry_self s e _ he])
          · intro hpres
            exact absurd hpres (by simp)
      | none =>
        rw [loadOp_slow_miss k s hf ha (by rw [hdi]; exact hfd)]
        rw [losOp_new_amended k v s d hf hdi hfd ha]
        dsimp only
        constructor
        · intro _
          refine ⟨rfl, ?_⟩
          rw [show s.amended = true from ha]
          exact loadOp_after_new k v s.heap s.readM d s.misses hf
        · intro hpres
          exact absurd hpres (by simp)

theorem c6_load_or_store_witness :
    (loadOrStoreOp "c" (5 : Nat) sAB).1 = (some 5, false) ∧
    (loadOp "c" (loadOrStoreOp "c" (5 : Nat) sAB).2).1 = (some 5, true) :=
  (c6_load_or_store sAB (Reachable.store "b" 2 (Reachable.store "a" 1 Reachable.init))
    "c" 5 0).1 (by decide)

theorem entryLoad_value_iff {V : Type} (d : EntryData V) (v : V) :
    entryLoad d = (some v, true) ↔ d.state = .kValue ∧ d.ptr = some v := by
  unfold entryLoad
  cases hd : d.state <;> simp [hd, Prod.mk.injEq]

theorem collectRaw_cons_found {K V : Type} [DecidableEq K] (heap : List (EntryData V))
    (k' : K) (e' : Nat) (t : Table K) (acc : List (K × V)) (w : V)
    (h : entryLoad (heapGet heap e') = (some w, true)) :
    collectRaw heap ((k', e') :: t) acc = collectRaw heap t (alEmplace acc k' w) := by
  show (match entryLoad (heapGet heap e') with
    | (some v, true) => collectRaw heap t (alEmplace acc k' v)
    | _ => collectRaw heap t acc) = collectRaw heap t (alEmplace acc k' w)
  rw [h]

theorem collectRaw_cons_skip {K V : Type} [DecidableEq K] (heap : List (EntryData V))
    (k' : K) (e' : Nat) (t : Table K) (acc : List (K × V))
    (h : ∀ w, ¬ entryLoad (heapGet heap e') = (some w, true)) :
    collectRaw heap ((k', e') :: t) acc = collectRaw heap t acc := by
  rcases hload : entryLoad (heapGet heap e') with ⟨o, b⟩
  show (match entryLoad (heapGet heap e') with
    | (some v, true) => collectRaw heap t (alEmplace acc k' v)
    | _ => collectRaw heap t acc) = collectRaw heap t acc
  rw [hload]
  cases o with
  | none => cases b <;> rfl
  | some w =>
    cases b with
    | false => rfl
    | true => exact absurd hload (h w)

theorem collectRaw_mem {K V : Type} [DecidableEq K] (heap : List (EntryData V))
    (tbl : Table K) (acc : List (K × V)) (k : K) (v : V)
    (hnd : (tbl.map Prod.fst).Nodup)
    (hdisj : ∀ p ∈ acc, p.1 ∉ tbl.map Prod.fst) :
    ((k, v) ∈ collectRaw heap tbl acc ↔
      (k, v) ∈ acc ∨
        ∃ e, alFind tbl k = some e ∧ entryLoad (heapGet heap e) = (some v, true)) := by
  revert hnd hdisj
  induction tbl generalizing acc with
  | nil =>
    intro hnd hdisj
    show (k, v) ∈ acc ↔ _
    simp [alFind]
  | cons p t ih =>
    obtain ⟨k', e'⟩ := p
    intro hnd hdisj
    have hnd' : (t.map Prod.fst).Nodup := (List.nodup_cons.mp hnd).2
    have hknt : k' ∉ t.map Prod.fst := (List.nodup_cons.mp hnd).1
    by_cases hload : ∃ w, entryLoad (heapGet heap e') = (some w, true)
    · obtain ⟨w, hw⟩ := hload
      rw [collectRaw_cons_found heap k' e' t acc w hw]
      have hfresh : alFind acc k' = none := by
        rw [alFind_none_iff]
        intro hmem
        obtain ⟨p, hp, hp1⟩ := List.mem_map.mp hmem
        exact hdisj p hp (by rw [hp1]; exact List.mem_cons_self _ _)
      have hE : alEmplace acc k' w = acc ++ [(k', w)] := by
        unfold alEmplace
        rw [hfresh]
      rw [ih (alEmplace acc k' w) hnd'
        (by intro p hp
            rw [hE] at hp
            rcases List.mem_append.mp hp with hp | hp
            · exact fun hmem => hdisj p hp (List.mem_cons_of_mem _ hmem)
            · rw [List.mem_singleton.mp hp]
              exact hknt)]
      have hmE : (k, v) ∈ alEmplace acc k' w ↔ (k, v) ∈ acc ∨ (k = k' ∧ v = w) := by
        rw [hE]
        simp [Prod.mk.injEq]
      rw [hmE]
      by_cases hkk : k' = k
      · subst hkk
        have hft : alFind t k' = none := (alFind_none_iff t k').mpr hknt
        constructor
        · rintro ((hacc | ⟨-, hv⟩) | ⟨e, he1, he2⟩)
          · exact Or.inl hacc
          · subst hv
            refine Or.inr ⟨e', ?_, hw⟩
            show (if k' = k' then some e' else alFind t k') = some e'
            rw [if_pos rfl]
          · rw [hft] at he1
            cases he1
        · rintro (hacc | ⟨e, he1, he2⟩)
          · exact Or.inl (Or.inl hacc)
          · have h2 : (if k' = k' then some e' else alFind t k') = some e := he1
            rw [if_pos rfl] at h2
            injection h2 with h3
            subst h3
            rw [hw] at he2
            rw [Prod.mk.injEq] at he2
            exact Or.inl (Or.inr ⟨rfl, (Option.some.inj he2.1).symm⟩)
      · have hcons : alFind ((k', e') :: t) k = alFind t k := by
          show (if k' = k then some e' else alFind t k) = alFind t k
          rw [if_neg hkk]
        rw [hcons]
        constructor
        · rintro ((hacc | ⟨hk1, -⟩) | hex)
          · exact Or.inl hacc
          · exact absurd hk1.symm hkk
          · exact Or.inr hex
        · rintro (hacc | hex)
          · exact Or.inl (Or.inl hacc)
          · exact Or.inr hex
    · push_neg at hload
      rw [collectRaw_cons_skip heap k' e' t acc hload]
      rw [ih acc hnd' (fun p hp hmem => hdisj p hp (List.mem_cons_of_mem _ hmem))]
      by_cases hkk : k' = k
      · subst hkk
        have hft : alFind t k' = none := (alFind_none_iff t k').mpr hknt
        constructor
        · rintro (hacc | ⟨e, he1, -⟩)
          · exact Or.inl hacc
          · rw [hft] at he1
            cases he1
        · rintro (hacc | ⟨e, he1, he2⟩)
          · exact Or.inl hacc
          · have h2 : (if k' = k' then some e' else alFind t k') = some e := he1
            rw [if_pos rfl] at h2
            injection h2 with h3
            subst h3
            exact absurd he2 (hload v)
      · have hcons : alFind ((k', e') :: t) k = alFind t k := by
          show (if k' = k then some e' else alFind t k) = alFind t k
          rw [if_neg hkk]
        rw [hcons]

/-- C8: in every reachable state, `Reset` returns a raw mapping containing
exactly the pairs `(k, v)` such that the final logical table (the overlay
when the snapshot is amended, else the snapshot's table) binds `k` to an
entry that is Present with value `v`; afterwards the map is drained — empty
non-amended snapshot, no overlay, zero misses — and a load of any key
reports not-found. -/
theorem c8_reset_drains {K V : Type} [DecidableEq K] (s : MapState K V) (hr : Reachable s)
    (k : K) (v : V) :
    (resetOp s).2 = (⟨s.heap, [], false, none, 0⟩ : MapState K V) ∧
    ((k, v) ∈ (resetOp s).1 ↔
      ∃ e, alFind (if s.amended then s.dirty.getD [] else s.readM) k = some e ∧
        (getEntry s e).state = .kValue ∧ (getEntry s e).ptr = some v) ∧
    (loadOp k (resetOp s).2).1 = (none, false) := by
  have h := inv_reachable hr
  refine ⟨rfl, ?_, ?_⟩
  · have hnd : ((if s.amended then s.dirty.getD [] else s.readM).map Prod.fst).Nodup := by
      cases ha : s.amended with
      | true =>
        show ((s.dirty.getD []).map Prod.fst).Nodup
        cases hdo : s.dirty with
        | none => exact absurd (h.amendedDirty.mp ha) (by rw [hdo]; simp)
        | some d => exact h.nodupDirty d hdo
      | false =>
        show (s.readM.map Prod.fst).Nodup
        exact h.nodupRead
    show (k, v) ∈ collectRaw s.heap (if s.amended then s.dirty.getD [] else s.readM) [] ↔ _
    rw [collectRaw_mem s.heap _ [] k v hnd (by intro p hp; cases hp)]
    simp only [List.not_mem_nil, false_or]
    constructor
    · rintro ⟨e, h1, h2⟩
      exact ⟨e, h1, (entryLoad_value_iff (getEntry s e) v).mp h2⟩
    · rintro ⟨e, h1, h2, h3⟩
      exact ⟨e, h1, (entryLoad_value_iff (getEntry s e) v).mpr ⟨h2, h3⟩⟩
  · show (loadOp k (⟨s.heap, [], false, none, 0⟩ : MapState K V)).1 = (none, false)
    rw [loadOp_absent k (⟨s.heap, [], false, none, 0⟩ : MapState K V) rfl rfl]

theorem c8_reset_drains_witness :
    (resetOp sAB).2 = (⟨sAB.heap, [], false, none, 0⟩ : MapState String Nat) ∧
    ((("a" : String), (1 : Nat)) ∈ (resetOp sAB).1 ↔
      ∃ e, alFind (if sAB.amended then sAB.dirty.getD [] else sAB.readM) "a" = some e ∧
        (getEntry sAB e).state = .kValue ∧ (getEntry sAB e).ptr = some 1) ∧
    (loadOp "a" (resetOp sAB).2).1 = (none, false) :=
  c8_reset_drains sAB (Reachable.store "b" 2 (Reachable.store "a" 1 Reachable.init)) "a" 1

end JulietSyncMap
